import Mathlib

/-!
Verification development for the symmetry core of the BZI package
(`BZI/symmetry.py`).

The Python code is shallowly embedded here.  Floating-point arithmetic is
modelled by exact rational arithmetic (`ℚ`); real-valued square roots that the
code only ever uses inside comparisons are expressed through exact rational
equivalents of those comparisons (squaring, with the sign conditions needed to
make the squaring valid), and `Real.sqrt` bridge lemmas justify the encodings.
Integer matrix algorithms (Hermite normal form) are embedded over `ℤ`.
Python exceptions are modelled with `Except`.
-/

set_option maxHeartbeats 1600000
set_option maxRecDepth 100000

attribute [local semireducible] Rat.mul Rat.add Rat.sub Rat.inv

namespace BZI

/-- A vector in three-space, with named components. -/
structure Vec3 (α : Type) where
  x : α
  y : α
  z : α
deriving DecidableEq, Repr

namespace Vec3

def add {α : Type} [Add α] (a b : Vec3 α) : Vec3 α := ⟨a.x + b.x, a.y + b.y, a.z + b.z⟩

def sub {α : Type} [Sub α] (a b : Vec3 α) : Vec3 α := ⟨a.x - b.x, a.y - b.y, a.z - b.z⟩

def neg {α : Type} [Neg α] (a : Vec3 α) : Vec3 α := ⟨-a.x, -a.y, -a.z⟩

def smul {α : Type} [Mul α] (c : α) (a : Vec3 α) : Vec3 α := ⟨c * a.x, c * a.y, c * a.z⟩

instance {α : Type} [Add α] : Add (Vec3 α) := ⟨Vec3.add⟩

instance {α : Type} [Sub α] : Sub (Vec3 α) := ⟨Vec3.sub⟩

instance {α : Type} [Neg α] : Neg (Vec3 α) := ⟨Vec3.neg⟩

instance {α : Type} [Mul α] : SMul α (Vec3 α) := ⟨Vec3.smul⟩

instance {α : Type} [Zero α] : Zero (Vec3 α) := ⟨⟨0, 0, 0⟩⟩

/-- Dot product. -/
def dot {α : Type} [Mul α] [Add α] (a b : Vec3 α) : α :=
  a.x * b.x + a.y * b.y + a.z * b.z

/-- Cross product (`np.cross`). -/
def cross {α : Type} [Mul α] [Sub α] (a b : Vec3 α) : Vec3 α :=
  ⟨a.y * b.z - a.z * b.y, a.z * b.x - a.x * b.z, a.x * b.y - a.y * b.x⟩

/-- Squared Euclidean norm `np.dot(v, v)`; the float `norm(v)` is `√(nsq v)`. -/
def nsq {α : Type} [Mul α] [Add α] (a : Vec3 α) : α := dot a a

/-- Componentwise map. -/
def map {α β : Type} (f : α → β) (a : Vec3 α) : Vec3 β := ⟨f a.x, f a.y, f a.z⟩

/-- Cast an integer vector to a rational vector. -/
def toRat (a : Vec3 ℤ) : Vec3 ℚ := ⟨(a.x : ℚ), (a.y : ℚ), (a.z : ℚ)⟩

theorem ext_iff {α : Type} (a b : Vec3 α) :
    a = b ↔ a.x = b.x ∧ a.y = b.y ∧ a.z = b.z := by
  constructor
  · rintro rfl; exact ⟨rfl, rfl, rfl⟩
  · rcases a with ⟨ax, ay, az⟩; rcases b with ⟨bx, by_, bz⟩
    rintro ⟨h1, h2, h3⟩; simp_all

@[simp] theorem add_def {α : Type} [Add α] (a b : Vec3 α) :
    a + b = ⟨a.x + b.x, a.y + b.y, a.z + b.z⟩ := rfl

@[simp] theorem sub_def {α : Type} [Sub α] (a b : Vec3 α) :
    a - b = ⟨a.x - b.x, a.y - b.y, a.z - b.z⟩ := rfl

@[simp] theorem neg_def {α : Type} [Neg α] (a : Vec3 α) :
    -a = ⟨-a.x, -a.y, -a.z⟩ := rfl

@[simp] theorem smul_def {α : Type} [Mul α] (c : α) (a : Vec3 α) :
    c • a = ⟨c * a.x, c * a.y, c * a.z⟩ := rfl

@[simp] theorem zero_def {α : Type} [Zero α] : (0 : Vec3 α) = ⟨0, 0, 0⟩ := rfl

end Vec3

/-- A 3×3 matrix stored as its three columns, matching the convention of the
Python code, where lattice and grid generating vectors are the columns of a
3×3 numpy array. -/
structure Mat3 (α : Type) where
  c0 : Vec3 α
  c1 : Vec3 α
  c2 : Vec3 α
deriving DecidableEq, Repr

namespace Mat3

/-- Matrix–vector product `np.dot(M, v)`: the linear combination of the
columns of `M` with the components of `v` as coefficients. -/
def mulVec {α : Type} [Mul α] [Add α] (M : Mat3 α) (v : Vec3 α) : Vec3 α :=
  v.x • M.c0 + v.y • M.c1 + v.z • M.c2

/-- Matrix–matrix product `np.dot(M, N)`. -/
def mul {α : Type} [Mul α] [Add α] (M N : Mat3 α) : Mat3 α :=
  ⟨M.mulVec N.c0, M.mulVec N.c1, M.mulVec N.c2⟩

instance {α : Type} [Mul α] [Add α] : Mul (Mat3 α) := ⟨Mat3.mul⟩

/-- The identity matrix. -/
def one {α : Type} [Zero α] [One α] : Mat3 α :=
  ⟨⟨1, 0, 0⟩, ⟨0, 1, 0⟩, ⟨0, 0, 1⟩⟩

instance {α : Type} [Zero α] [One α] : One (Mat3 α) := ⟨Mat3.one⟩

/-- Rows of the matrix (row `i` collects component `i` of every column). -/
def row0 {α : Type} (M : Mat3 α) : Vec3 α := ⟨M.c0.x, M.c1.x, M.c2.x⟩

def row1 {α : Type} (M : Mat3 α) : Vec3 α := ⟨M.c0.y, M.c1.y, M.c2.y⟩

def row2 {α : Type} (M : Mat3 α) : Vec3 α := ⟨M.c0.z, M.c1.z, M.c2.z⟩

/-- Transpose. -/
def transpose {α : Type} (M : Mat3 α) : Mat3 α := ⟨M.row0, M.row1, M.row2⟩

/-- Determinant, expanded along the first row; entry `M[i][j]` is component
`i` of column `j`. -/
def det {α : Type} [Mul α] [Add α] [Sub α] (M : Mat3 α) : α :=
  M.c0.x * (M.c1.y * M.c2.z - M.c2.y * M.c1.z)
    - M.c1.x * (M.c0.y * M.c2.z - M.c2.y * M.c0.z)
    + M.c2.x * (M.c0.y * M.c1.z - M.c1.y * M.c0.z)

/-- Adjugate (transpose of the cofactor matrix), so that
`M * adjugate M = det M • 1`. -/
def adjugate {α : Type} [Mul α] [Add α] [Sub α] [Neg α] (M : Mat3 α) : Mat3 α :=
  ⟨⟨M.c1.y * M.c2.z - M.c2.y * M.c1.z,
    -(M.c0.y * M.c2.z - M.c2.y * M.c0.z),
    M.c0.y * M.c1.z - M.c1.y * M.c0.z⟩,
   ⟨-(M.c1.x * M.c2.z - M.c2.x * M.c1.z),
    M.c0.x * M.c2.z - M.c2.x * M.c0.z,
    -(M.c0.x * M.c1.z - M.c1.x * M.c0.z)⟩,
   ⟨M.c1.x * M.c2.y - M.c2.x * M.c1.y,
    -(M.c0.x * M.c2.y - M.c2.x * M.c0.y),
    M.c0.x * M.c1.y - M.c1.x * M.c0.y⟩⟩

/-- Componentwise scalar multiple of a matrix. -/
def smulM {α : Type} [Mul α] (c : α) (M : Mat3 α) : Mat3 α :=
  ⟨c • M.c0, c • M.c1, c • M.c2⟩

/-- Matrix inverse over a field via the adjugate (`np.linalg.inv`, exact). -/
def inv {α : Type} [Field α] (M : Mat3 α) : Mat3 α :=
  smulM (1 / M.det) M.adjugate

/-- Cast an integer matrix to a rational matrix. -/
def toRat (M : Mat3 ℤ) : Mat3 ℚ := ⟨M.c0.toRat, M.c1.toRat, M.c2.toRat⟩

theorem meq_iff {α : Type} (M N : Mat3 α) :
    M = N ↔ M.c0 = N.c0 ∧ M.c1 = N.c1 ∧ M.c2 = N.c2 := by
  constructor
  · rintro rfl; exact ⟨rfl, rfl, rfl⟩
  · rcases M with ⟨a, b, c⟩; rcases N with ⟨d, e, f⟩
    rintro ⟨h1, h2, h3⟩; simp_all

@[simp] theorem mul_def {α : Type} [Mul α] [Add α] (M N : Mat3 α) :
    M * N = ⟨M.mulVec N.c0, M.mulVec N.c1, M.mulVec N.c2⟩ := rfl

@[simp] theorem one_def {α : Type} [Zero α] [One α] :
    (1 : Mat3 α) = ⟨⟨1, 0, 0⟩, ⟨0, 1, 0⟩, ⟨0, 0, 1⟩⟩ := rfl

/-- Key algebraic fact used for integer/rational matrix inversion:
the adjugate identity `M * adjugate M = det M • 1`. -/
theorem mul_adjugate {α : Type} [CommRing α] (M : Mat3 α) :
    M * M.adjugate = smulM M.det 1 := by
  rcases M with ⟨⟨a, b, c⟩, ⟨d, e, f⟩, ⟨g, h, i⟩⟩
  simp only [mul_def, adjugate, mulVec, det, smulM, Vec3.smul_def, Vec3.add_def,
    Vec3.zero_def, one_def, Mat3.meq_iff, Vec3.ext_iff]
  refine ⟨⟨by ring, by ring, by ring⟩, ⟨by ring, by ring, by ring⟩, by ring, by ring, by ring⟩

/-- The companion adjugate identity `adjugate M * M = det M • 1`. -/
theorem adjugate_mul {α : Type} [CommRing α] (M : Mat3 α) :
    M.adjugate * M = smulM M.det 1 := by
  rcases M with ⟨⟨a, b, c⟩, ⟨d, e, f⟩, ⟨g, h, i⟩⟩
  simp only [mul_def, adjugate, mulVec, det, smulM, Vec3.smul_def, Vec3.add_def,
    Vec3.zero_def, one_def, Mat3.meq_iff, Vec3.ext_iff]
  refine ⟨⟨by ring, by ring, by ring⟩, ⟨by ring, by ring, by ring⟩, by ring, by ring, by ring⟩

/-- Determinant is multiplicative. -/
theorem det_mul {α : Type} [CommRing α] (M N : Mat3 α) :
    (M * N).det = M.det * N.det := by
  rcases M with ⟨⟨a, b, c⟩, ⟨d, e, f⟩, ⟨g, h, i⟩⟩
  rcases N with ⟨⟨a', b', c'⟩, ⟨d', e', f'⟩, ⟨g', h', i'⟩⟩
  simp only [mul_def, mulVec, det, Vec3.smul_def, Vec3.add_def]
  ring

theorem smulM_mul {α : Type} [CommRing α] (c : α) (A B : Mat3 α) :
    smulM c A * B = smulM c (A * B) := by
  rcases A with ⟨⟨a, b, c'⟩, ⟨d, e, f⟩, ⟨g, h, i⟩⟩
  rcases B with ⟨⟨a', b', c''⟩, ⟨d', e', f'⟩, ⟨g', h', i'⟩⟩
  simp only [smulM, mul_def, mulVec, Vec3.smul_def, Vec3.add_def, Mat3.meq_iff, Vec3.ext_iff]
  refine ⟨⟨by ring, by ring, by ring⟩, ⟨by ring, by ring, by ring⟩, by ring, by ring, by ring⟩

theorem mul_smulM {α : Type} [CommRing α] (c : α) (A B : Mat3 α) :
    A * smulM c B = smulM c (A * B) := by
  rcases A with ⟨⟨a, b, c'⟩, ⟨d, e, f⟩, ⟨g, h, i⟩⟩
  rcases B with ⟨⟨a', b', c''⟩, ⟨d', e', f'⟩, ⟨g', h', i'⟩⟩
  simp only [smulM, mul_def, mulVec, Vec3.smul_def, Vec3.add_def, Mat3.meq_iff, Vec3.ext_iff]
  refine ⟨⟨by ring, by ring, by ring⟩, ⟨by ring, by ring, by ring⟩, by ring, by ring, by ring⟩

theorem smulM_smulM {α : Type} [CommRing α] (c d : α) (A : Mat3 α) :
    smulM c (smulM d A) = smulM (c * d) A := by
  rcases A with ⟨⟨a, b, c'⟩, ⟨d', e, f⟩, ⟨g, h, i⟩⟩
  simp only [smulM, Vec3.smul_def, Mat3.meq_iff, Vec3.ext_iff]
  refine ⟨⟨by ring, by ring, by ring⟩, ⟨by ring, by ring, by ring⟩, by ring, by ring, by ring⟩

theorem smulM_one_eq {α : Type} [CommRing α] (A : Mat3 α) : smulM 1 A = A := by
  rcases A with ⟨⟨a, b, c'⟩, ⟨d', e, f⟩, ⟨g, h, i⟩⟩
  simp only [smulM, Vec3.smul_def, Mat3.meq_iff, Vec3.ext_iff]
  refine ⟨⟨by ring, by ring, by ring⟩, ⟨by ring, by ring, by ring⟩, by ring, by ring, by ring⟩

theorem inv_mul {M : Mat3 ℚ} (h : M.det ≠ 0) : M.inv * M = 1 := by
  rw [inv, smulM_mul, adjugate_mul, smulM_smulM, one_div, inv_mul_cancel₀ h, smulM_one_eq]

theorem mul_inv {M : Mat3 ℚ} (h : M.det ≠ 0) : M * M.inv = 1 := by
  rw [inv, mul_smulM, mul_adjugate, smulM_smulM, one_div, inv_mul_cancel₀ h, smulM_one_eq]

end Mat3

/-- The Python exceptions raised by the embedded functions. -/
inductive PyErr : Type where
  | singularMatrix
  | linearDependence
  | incommensurate
  | volumeTooBig
  | convergence
  | consistency
  | transformBroken
  | notTriangular
  | negativeElements
  | offDiagTooBig
  | keyError
  | indexError
deriving DecidableEq, Repr

instance instDecEqExcept {E A : Type} [DecidableEq E] [DecidableEq A] :
    DecidableEq (Except E A) := fun a b =>
  match a, b with
  | Except.error e, Except.error f =>
      if h : e = f then Decidable.isTrue (by rw [h])
      else Decidable.isFalse (fun hc => h (by injection hc))
  | Except.error _, Except.ok _ => Decidable.isFalse (fun hc => Except.noConfusion hc)
  | Except.ok _, Except.error _ => Decidable.isFalse (fun hc => Except.noConfusion hc)
  | Except.ok x, Except.ok y =>
      if h : x = y then Decidable.isTrue (by rw [h])
      else Decidable.isFalse (fun hc => h (by injection hc))

instance instDecEqVec3 {α : Type} [DecidableEq α] : DecidableEq (Vec3 α) := fun a b =>
  decidable_of_iff _ (Vec3.ext_iff a b).symm

instance instDecEqMat3 {α : Type} [DecidableEq α] : DecidableEq (Mat3 α) := fun M N =>
  decidable_of_iff _ (Mat3.meq_iff M N).symm

/-- `np.isclose(a, b, rtol, atol)`: `|a - b| ≤ atol + rtol * |b|`. -/
def isclose (a b rtol atol : ℚ) : Bool := |a - b| ≤ atol + rtol * |b|

/-- `np.allclose` / componentwise `np.isclose` on a 3-vector. -/
def allcloseV (a b : Vec3 ℚ) (rtol atol : ℚ) : Bool :=
  isclose a.x b.x rtol atol && isclose a.y b.y rtol atol && isclose a.z b.z rtol atol

/-- `np.allclose` on a 3×3 array. -/
def allcloseM (A B : Mat3 ℚ) (rtol atol : ℚ) : Bool :=
  allcloseV A.c0 B.c0 rtol atol && allcloseV A.c1 B.c1 rtol atol
    && allcloseV A.c2 B.c2 rtol atol

/-- Python's `%1` on a float: the fractional part, in `[0, 1)`. -/
def fract (q : ℚ) : ℚ := q - ⌊q⌋

/-- `np.round` to the nearest integer with ties to even (banker's rounding). -/
def roundHalfEven (q : ℚ) : ℤ :=
  let f := ⌊q⌋
  let r := q - f
  if r < 1 / 2 then f
  else if 1 / 2 < r then f + 1
  else if f % 2 = 0 then f else f + 1

/-- `np.round(q, d)`: round to `d` decimal places, ties to even. -/
def roundDecimals (q : ℚ) (d : ℕ) : ℚ :=
  (roundHalfEven (q * (10 : ℚ) ^ d) : ℚ) / (10 : ℚ) ^ d

/-- `.astype(int)` on a float: truncation toward zero. -/
def truncQ (q : ℚ) : ℤ := if q < 0 then ⌈q⌉ else ⌊q⌋

/-- Componentwise `np.round` of a vector to the nearest integers. -/
def roundV (v : Vec3 ℚ) : Vec3 ℤ := ⟨roundHalfEven v.x, roundHalfEven v.y, roundHalfEven v.z⟩

/-- Componentwise `np.floor(... ).astype(int)` of a vector. -/
def floorV (v : Vec3 ℚ) : Vec3 ℤ := ⟨⌊v.x⌋, ⌊v.y⌋, ⌊v.z⌋⟩

/-- Exact rational square root: returns `√q` when `q` is the square of a
rational, and `0` otherwise.  It models the float `np.sqrt`/`norm` exactly on
perfect squares; every concrete claim below evaluates it only at perfect
squares. -/
def ratSqrt (q : ℚ) : ℚ :=
  let n := Nat.sqrt q.num.toNat
  let d := Nat.sqrt q.den
  if 0 ≤ q.num ∧ n * n = q.num.toNat ∧ d * d = q.den then (n : ℚ) / (d : ℚ) else 0

/-- The comparison `√x < √y + ε` (for `x, y, ε ≥ 0`), expressed exactly in
rational arithmetic: `√x < √y + ε ↔ x - y - ε² < 2ε√y`, and when the left side
is nonnegative both sides may be squared.  Used for the code's
`(norm(v1) - eps) < norm(v2)`-style comparisons. -/
def sqrtLtSqrtAddEps (x y ε : ℚ) : Bool :=
  x - y - ε ^ 2 < 0 || (x - y - ε ^ 2) ^ 2 < 4 * ε ^ 2 * y

/-- The comparison `√x + ε < √y` (for `x, y, ε ≥ 0`), expressed exactly in
rational arithmetic: `√x + ε < √y ↔ y - x - ε² > 2ε√x` with both sides
squarable when positive.  Used for the code's `(norm(u) + eps) < norm(w)`
comparisons. -/
def sqrtAddEpsLtSqrt (x ε y : ℚ) : Bool :=
  0 < y - x - ε ^ 2 && 4 * ε ^ 2 * x < (y - x - ε ^ 2) ^ 2

theorem sqrtLtSqrtAddEps_iff (x y ε : ℚ) (hx : 0 ≤ x) (hy : 0 ≤ y) (hε : 0 ≤ ε) :
    sqrtLtSqrtAddEps x y ε = true ↔
      Real.sqrt (x : ℝ) < Real.sqrt (y : ℝ) + (ε : ℝ) := by
  have hsy : Real.sqrt (y : ℝ) ^ 2 = (y : ℝ) := Real.sq_sqrt (by exact_mod_cast hy)
  have hsy0 : (0 : ℝ) ≤ Real.sqrt (y : ℝ) := Real.sqrt_nonneg _
  have hrhs0 : (0 : ℝ) ≤ Real.sqrt (y : ℝ) + (ε : ℝ) := by positivity
  have key : Real.sqrt (x : ℝ) < Real.sqrt (y : ℝ) + (ε : ℝ) ↔
      (x : ℝ) < (Real.sqrt (y : ℝ) + (ε : ℝ)) ^ 2 := by
    rcases eq_or_lt_of_le hrhs0 with h0 | hpos
    · constructor
      · intro h; exact absurd (h.trans_le h0.ge) (not_lt.mpr (Real.sqrt_nonneg _))
      · intro h
        rw [← h0] at h
        simp at h
        exact absurd (lt_of_le_of_lt (by exact_mod_cast hx) h) (lt_irrefl 0)
    · exact Real.sqrt_lt' hpos
  have expand : (Real.sqrt (y : ℝ) + (ε : ℝ)) ^ 2
      = (y : ℝ) + (ε : ℝ) ^ 2 + 2 * (ε : ℝ) * Real.sqrt (y : ℝ) := by
    have : (Real.sqrt (y : ℝ) + (ε : ℝ)) ^ 2
        = Real.sqrt (y : ℝ) ^ 2 + (ε : ℝ) ^ 2 + 2 * (ε : ℝ) * Real.sqrt (y : ℝ) := by ring
    rw [this, hsy]
  rw [key, expand]
  constructor
  · intro h
    rcases Bool.or_eq_true_iff.mp h with h1 | h1
    · have h1' : (x : ℝ) - (y : ℝ) - (ε : ℝ) ^ 2 < 0 := by
        have := of_decide_eq_true h1
        push_cast
        exact_mod_cast this
      nlinarith [mul_nonneg (mul_nonneg (by norm_num : (0:ℝ) ≤ 2) (show (0:ℝ) ≤ (ε:ℝ) by exact_mod_cast hε)) hsy0]
    · have h1' : ((x : ℝ) - (y : ℝ) - (ε : ℝ) ^ 2) ^ 2 < 4 * (ε : ℝ) ^ 2 * (y : ℝ) := by
        have := of_decide_eq_true h1
        exact_mod_cast this
      have hε' : (0 : ℝ) ≤ (ε : ℝ) := by exact_mod_cast hε
      have h2εs : (0 : ℝ) ≤ 2 * (ε : ℝ) * Real.sqrt (y : ℝ) := by positivity
      by_contra hge
      push_neg at hge
      have hd : 2 * (ε : ℝ) * Real.sqrt (y : ℝ) ≤ (x : ℝ) - (y : ℝ) - (ε : ℝ) ^ 2 := by
        linarith
      have hsq := pow_le_pow_left h2εs hd 2
      have h4 : (2 * (ε : ℝ) * Real.sqrt (y : ℝ)) ^ 2 = 4 * (ε : ℝ) ^ 2 * (y : ℝ) := by
        have hr : (2 * (ε : ℝ) * Real.sqrt (y : ℝ)) ^ 2
            = 4 * (ε : ℝ) ^ 2 * Real.sqrt (y : ℝ) ^ 2 := by ring
        rw [hr, hsy]
      rw [h4] at hsq
      linarith
  · intro h
    rw [sqrtLtSqrtAddEps, Bool.or_eq_true_iff]
    by_cases hcase : x - y - ε ^ 2 < 0
    · exact Or.inl (decide_eq_true hcase)
    · right
      apply decide_eq_true
      have hcase' : (0 : ℝ) ≤ (x : ℝ) - (y : ℝ) - (ε : ℝ) ^ 2 := by
        have := not_lt.mp hcase
        push_cast
        exact_mod_cast this
      have h2 : (x : ℝ) - (y : ℝ) - (ε : ℝ) ^ 2 < 2 * (ε : ℝ) * Real.sqrt (y : ℝ) := by
        nlinarith
      have : ((x : ℝ) - (y : ℝ) - (ε : ℝ) ^ 2) ^ 2 < 4 * (ε : ℝ) ^ 2 * (y : ℝ) := by
        nlinarith [hsy, mul_nonneg (mul_nonneg (by norm_num : (0:ℝ) ≤ 2) (show (0:ℝ) ≤ (ε:ℝ) by exact_mod_cast hε)) hsy0]
      exact_mod_cast this

theorem sqrtAddEpsLtSqrt_iff (x ε y : ℚ) (hx : 0 ≤ x) (hε : 0 ≤ ε) :
    sqrtAddEpsLtSqrt x ε y = true ↔
      Real.sqrt (x : ℝ) + (ε : ℝ) < Real.sqrt (y : ℝ) := by
  have hsx : Real.sqrt (x : ℝ) ^ 2 = (x : ℝ) := Real.sq_sqrt (by exact_mod_cast hx)
  have hsx0 : (0 : ℝ) ≤ Real.sqrt (x : ℝ) := Real.sqrt_nonneg _
  have hε' : (0 : ℝ) ≤ (ε : ℝ) := by exact_mod_cast hε
  have hiff : Real.sqrt (x : ℝ) + (ε : ℝ) < Real.sqrt (y : ℝ) ↔
      (Real.sqrt (x : ℝ) + (ε : ℝ)) ^ 2 < (y : ℝ) :=
    Real.lt_sqrt (by positivity)
  have expand : (Real.sqrt (x : ℝ) + (ε : ℝ)) ^ 2
      = (x : ℝ) + (ε : ℝ) ^ 2 + 2 * (ε : ℝ) * Real.sqrt (x : ℝ) := by
    have h0 : (Real.sqrt (x : ℝ) + (ε : ℝ)) ^ 2
        = Real.sqrt (x : ℝ) ^ 2 + (ε : ℝ) ^ 2 + 2 * (ε : ℝ) * Real.sqrt (x : ℝ) := by ring
    rw [h0, hsx]
  rw [hiff, expand]
  constructor
  · intro h
    rcases Bool.and_eq_true_iff.mp h with ⟨h1, h2⟩
    have h1' : (0 : ℝ) < (y : ℝ) - (x : ℝ) - (ε : ℝ) ^ 2 := by
      have := of_decide_eq_true h1; exact_mod_cast this
    have h2' : 4 * (ε : ℝ) ^ 2 * (x : ℝ) < ((y : ℝ) - (x : ℝ) - (ε : ℝ) ^ 2) ^ 2 := by
      have := of_decide_eq_true h2; exact_mod_cast this
    nlinarith [hsx, hsx0, mul_nonneg (mul_nonneg (by norm_num : (0:ℝ) ≤ 2) hε') hsx0]
  · intro h
    rw [sqrtAddEpsLtSqrt, Bool.and_eq_true_iff]
    have hc : 2 * (ε : ℝ) * Real.sqrt (x : ℝ) < (y : ℝ) - (x : ℝ) - (ε : ℝ) ^ 2 := by
      nlinarith
    have hc0 : (0 : ℝ) < (y : ℝ) - (x : ℝ) - (ε : ℝ) ^ 2 :=
      lt_of_le_of_lt (mul_nonneg (mul_nonneg (by norm_num) hε') hsx0) hc
    constructor
    · apply decide_eq_true
      exact_mod_cast hc0
    · apply decide_eq_true
      have h2εs : (0 : ℝ) ≤ 2 * (ε : ℝ) * Real.sqrt (x : ℝ) := by positivity
      have hsq := pow_lt_pow_left hc h2εs (two_ne_zero)
      have h4 : (2 * (ε : ℝ) * Real.sqrt (x : ℝ)) ^ 2 = 4 * (ε : ℝ) ^ 2 * (x : ℝ) := by
        have hr : (2 * (ε : ℝ) * Real.sqrt (x : ℝ)) ^ 2
            = 4 * (ε : ℝ) ^ 2 * Real.sqrt (x : ℝ) ^ 2 := by ring
        rw [hr, hsx]
      rw [h4] at hsq
      exact_mod_cast hsq

/-- The float value of `np.pi` (modelled by the 16-significant-digit decimal
approximation of π). -/
def ratPi : ℚ := 3141592653589793 / 10 ^ 15

/-- `np.sort` of three values, ascending. -/
def sort3 (a b c : ℚ) : ℚ × ℚ × ℚ :=
  if a ≤ b then
    if b ≤ c then (a, b, c) else if a ≤ c then (a, c, b) else (c, a, b)
  else
    if a ≤ c then (b, a, c) else if b ≤ c then (b, c, a) else (c, b, a)

/-- Python's `max` of three values. -/
def max3 (a b c : ℚ) : ℚ := max a (max b c)

/-- The two angle guards at the top of `make_ptvecs` (symmetry.py:880-896):
`True` exactly when the function raises its linear-dependence `ValueError`
before any vectors are built.  The first guard fires when the sum of the two
smallest angles is less than, or `np.isclose` to, the largest angle; the
second fires when the three angles are pairwise `np.isclose` and close to
`2·π/3`.  `np.isclose` defaults (`rtol=1e-5`, `atol=1e-8`) are used, matching
the source. -/
def make_ptvecs_angle_guard (angles : Vec3 ℚ) : Bool :=
  let s := sort3 angles.x angles.y angles.z
  let sum2 := s.1 + s.2.1
  let mx := max3 angles.x angles.y angles.z
  (sum2 < mx) || isclose sum2 mx (1 / 100000) (1 / 100000000)
    || (isclose angles.x angles.y (1 / 100000) (1 / 100000000)
        && isclose angles.y angles.z (1 / 100000) (1 / 100000000)
        && isclose angles.y (2 * ratPi / 3) (1 / 100000) (1 / 100000000))

/-- Componentwise Python `%` of an integer vector by an integer vector;
for positive divisors Python's `%` is Euclidean `emod`. -/
def emod3 (v D : Vec3 ℤ) : Vec3 ℤ := ⟨v.x % D.x, v.y % D.y, v.z % D.z⟩

/-- Componentwise `.astype(int)` truncation of a rational vector. -/
def truncV (v : Vec3 ℚ) : Vec3 ℤ := ⟨truncQ v.x, truncQ v.y, truncQ v.z⟩

/-- The diagonal matrix with the entries of `D` on the diagonal (the Smith
normal form diagonal reassembled as a matrix). -/
def diagM (D : Vec3 ℤ) : Mat3 ℤ := ⟨⟨D.x, 0, 0⟩, ⟨0, D.y, 0⟩, ⟨0, 0, D.z⟩⟩

/-- `find_kpt_index` (symmetry.py:2159): convert the k-point to grid
coordinates with `invK`, round to `eps` decimals, apply the left SNF
transform `L`, truncate to integers, reduce modulo the SNF diagonal `D`, and
read off the mixed-radix integer
`gpt[0]*D[1]*D[2] + gpt[1]*D[2] + gpt[2]`. -/
def find_kpt_index (kpt : Vec3 ℚ) (invK : Mat3 ℚ) (L : Mat3 ℤ) (D : Vec3 ℤ)
    (eps : ℕ) : ℤ :=
  let gpt := (invK.mulVec kpt).map (fun q => roundDecimals q eps)
  let gl := emod3 (truncV (L.toRat.mulVec gpt)) D
  gl.x * D.y * D.z + gl.y * D.z + gl.z

/-- The integer-level hash underlying `find_kpt_index`: on exact grid
coordinates `g ∈ ℤ³` the float pipeline reduces to
`((L·g) mod D) · (D[1]*D[2], D[2], 1)`. -/
def hashZ (L : Mat3 ℤ) (D : Vec3 ℤ) (g : Vec3 ℤ) : ℤ :=
  let m := emod3 (L.mulVec g) D
  m.x * D.y * D.z + m.y * D.z + m.z

/-- Stable ascending sort of a pair of vectors by Euclidean norm
(`np.argsort(norm(...))` on two entries): swap exactly when the second vector
is strictly shorter; comparing norms is equivalent to comparing squared
norms. -/
def sortPair (v1 v2 : Vec3 ℚ) : Vec3 ℚ × Vec3 ℚ :=
  if Vec3.nsq v2 < Vec3.nsq v1 then (v2, v1) else (v1, v2)

/-- The body of `gaussian_reduction`'s `while` loop (symmetry.py:2991-3006)
with the iteration counter as fuel: the source raises after 10 iterations.
Subtract the rounded projection multiple of `v1` from `v2`, test
`(norm(v1) - eps) < norm(v2)` (encoded exactly as `sqrtLtSqrtAddEps`), re-sort
by norm, and return or continue. -/
def gaussian_reduction_go (ε : ℚ) : ℕ → Vec3 ℚ → Vec3 ℚ → Except PyErr (Vec3 ℚ × Vec3 ℚ)
  | 0, _, _ => .error .convergence
  | fuel + 1, v1, v2 =>
      let v2' := v2 - (roundHalfEven (Vec3.dot v1 v2 / Vec3.dot v1 v1) : ℚ) • v1
      let reduced := sqrtLtSqrtAddEps (Vec3.nsq v1) (Vec3.nsq v2') ε
      let p := sortPair v1 v2'
      if reduced then .ok p else gaussian_reduction_go ε fuel p.1 p.2

/-- `gaussian_reduction` (symmetry.py:2965): sort the two vectors by norm and
run the reduction loop, which raises a non-convergence `ValueError` once the
iteration counter exceeds 10. -/
def gaussian_reduction (v1 v2 : Vec3 ℚ) (ε : ℚ) : Except PyErr (Vec3 ℚ × Vec3 ℚ) :=
  let p := sortPair v1 v2
  gaussian_reduction_go ε 10 p.1 p.2

/-- Entry `i` of a 3-vector under numpy-style indexing. -/
def entry3 {α : Type} (a : Vec3 α) (i : ℕ) : α :=
  match i with
  | 0 => a.x
  | 1 => a.y
  | _ => a.z

/-- Column `i` of a matrix. -/
def getCol {α : Type} (M : Mat3 α) (i : ℕ) : Vec3 α :=
  match i with
  | 0 => M.c0
  | 1 => M.c1
  | _ => M.c2

/-- Replace column `i` of a matrix. -/
def setCol {α : Type} (M : Mat3 α) (i : ℕ) (v : Vec3 α) : Mat3 α :=
  match i with
  | 0 => ⟨v, M.c1, M.c2⟩
  | 1 => ⟨M.c0, v, M.c2⟩
  | _ => ⟨M.c0, M.c1, v⟩

/-- The column operation `M[:, dst] -= mult * M[:, src]`. -/
def colSubMul (M : Mat3 ℤ) (dst src : ℕ) (mult : ℤ) : Mat3 ℤ :=
  setCol M dst (getCol M dst - mult • getCol M src)

/-- Negate column `i` (`M[:, i] = -M[:, i]`). -/
def negCol (M : Mat3 ℤ) (i : ℕ) : Mat3 ℤ := setCol M i (-(getCol M i))

/-- Swap columns `i` and `j`. -/
def swapColsInt (M : Mat3 ℤ) (i j : ℕ) : Mat3 ℤ :=
  setCol (setCol M i (getCol M j)) j (getCol M i)

/-- `np.count_nonzero` on a 3-vector. -/
def countNonzero (a : Vec3 ℤ) : ℕ :=
  (if a.x = 0 then 0 else 1) + (if a.y = 0 then 0 else 1) + (if a.z = 0 then 0 else 1)

/-- Sum of the absolute values of the entries of a 3-vector; the termination
measure of the Hermite-normal-form row-elimination loop. -/
def rowAbsSum (a : Vec3 ℤ) : ℕ := a.x.natAbs + a.y.natAbs + a.z.natAbs

/-- `get_minmax_indices` (symmetry.py:1829): on the absolute values of the
three entries, the index of the first occurrence of the smallest nonzero
value, and (via `2 - np.argmax(a[::-1])`) the index of the last occurrence of
the largest value. -/
def get_minmax_indices (a : Vec3 ℤ) : ℕ × ℕ :=
  let ax := a.x.natAbs
  let ay := a.y.natAbs
  let az := a.z.natAbs
  let maxi := if ay ≤ az ∧ ax ≤ az then 2 else if ax ≤ ay then 1 else 0
  let mini := if ax ≠ 0 ∧ (ay = 0 ∨ ax ≤ ay) ∧ (az = 0 ∨ ax ≤ az) then 0
    else if ay ≠ 0 ∧ (az = 0 ∨ ay ≤ az) then 1 else 2
  (mini, maxi)

/-- `swap_column(M, B, 0)` (symmetry.py:1853): swap column 0 with the column
holding the first occurrence of the largest absolute value in row 0, in both
matrices. -/
def swap_column0 (M B : Mat3 ℤ) : Mat3 ℤ × Mat3 ℤ :=
  let a0 := M.c0.x.natAbs
  let a1 := M.c1.x.natAbs
  let a2 := M.c2.x.natAbs
  let maxidx := if a1 ≤ a0 ∧ a2 ≤ a0 then 0 else if a2 ≤ a1 then 1 else 2
  (swapColsInt M 0 maxidx, swapColsInt B 0 maxidx)

/-- The first elimination loop of `HermiteNormalForm` (symmetry.py:1927):
column operations until at most one entry of row 0 is nonzero.  The fuel is
an embedding artifact: the source loops unboundedly, and the sum of absolute
values of row 0 strictly decreases, so fuel `rowAbsSum(row 0) + 1` always
suffices (proved below). -/
def hnf_loop1 (S : Mat3 ℤ) : ℕ → Mat3 ℤ → Mat3 ℤ → Except PyErr (Mat3 ℤ × Mat3 ℤ)
  | 0, _, _ => Except.error PyErr.convergence
  | fuel + 1, H, B =>
    if countNonzero H.row0 ≤ 1 then Except.ok (H, B)
    else
      let p := get_minmax_indices H.row0
      let minm := entry3 H.row0 p.1
      let mult := Int.tdiv (entry3 H.row0 p.2) minm
      let H' := colSubMul H p.2 p.1 mult
      let B' := colSubMul B p.2 p.1 mult
      if S * B' ≠ H' then Except.error PyErr.transformBroken
      else hnf_loop1 S fuel H' B'

/-- The second elimination loop of `HermiteNormalForm` (symmetry.py:1952):
zero out `H[1,2]`.  When `H[1,1] = 0` the source swaps columns 1 and 2 of
both matrices and the subsequent `if H[1,2] == 0: break` necessarily fires
(the swapped-in entry is the zero `H[1,1]`), so the swap branch returns. -/
def hnf_loop2 (S : Mat3 ℤ) : ℕ → Mat3 ℤ → Mat3 ℤ → Except PyErr (Mat3 ℤ × Mat3 ℤ)
  | 0, _, _ => Except.error PyErr.convergence
  | fuel + 1, H, B =>
    if H.c2.y = 0 then Except.ok (H, B)
    else if H.c1.y = 0 then Except.ok (swapColsInt H 1 2, swapColsInt B 1 2)
    else
      let mi := if H.c2.y.natAbs < H.c1.y.natAbs then (1, 2) else (2, 1)
      let mult := Int.tdiv (entry3 H.row1 mi.1) (entry3 H.row1 mi.2)
      let H' := colSubMul H mi.1 mi.2 mult
      let B' := colSubMul B mi.1 mi.2 mult
      if S * B' ≠ H' then Except.error PyErr.transformBroken
      else hnf_loop2 S fuel H' B'

/-- The off-diagonal reduction loop for `H[1,0]` (symmetry.py:2008): add or
subtract column 1 from column 0 until `0 ≤ H[1,0] < H[1,1]`. -/
def hnf_loop3 : ℕ → Mat3 ℤ → Mat3 ℤ → Except PyErr (Mat3 ℤ × Mat3 ℤ)
  | 0, _, _ => Except.error PyErr.convergence
  | fuel + 1, H, B =>
    if H.c1.y ≤ H.c0.y ∨ H.c0.y < 0 then
      let mult : ℤ := if H.c1.y ≤ H.c0.y then 1 else -1
      hnf_loop3 fuel (colSubMul H 0 1 mult) (colSubMul B 0 1 mult)
    else Except.ok (H, B)

/-- The off-diagonal reduction loop for `H[2,j]` (symmetry.py:2017): add or
subtract column 2 from column `j` until `0 ≤ H[2,j] < H[2,2]`. -/
def hnf_loop4 (j : ℕ) : ℕ → Mat3 ℤ → Mat3 ℤ → Except PyErr (Mat3 ℤ × Mat3 ℤ)
  | 0, _, _ => Except.error PyErr.convergence
  | fuel + 1, H, B =>
    if H.c2.z ≤ (getCol H j).z ∨ (getCol H j).z < 0 then
      let mult : ℤ := if H.c2.z ≤ (getCol H j).z then 1 else -1
      hnf_loop4 j fuel (colSubMul H j 2 mult) (colSubMul B j 2 mult)
    else Except.ok (H, B)

/-- `HermiteNormalForm` (symmetry.py:1907): reject singular matrices, zero
row 0 off the diagonal by Euclidean column elimination, fix signs, zero
`H[1,2]`, fix signs, then reduce the below-diagonal entries into
`[0, diagonal)`.  All the source's internal `ValueError` consistency checks
(`np.allclose(S·B, H)`, triangularity, sign and bound checks) are embedded as
error branches; the final `np.round(H, eps).astype(int)` is the identity on
exact integers and is omitted. -/
def HermiteNormalForm (S : Mat3 ℤ) : Except PyErr (Mat3 ℤ × Mat3 ℤ) :=
  if S.det = 0 then Except.error PyErr.singularMatrix
  else
    match hnf_loop1 S (rowAbsSum S.row0 + 1) S 1 with
    | Except.error e => Except.error e
    | Except.ok (H1, B1) =>
      let p2 := if H1.c0.x = 0 then swap_column0 H1 B1 else (H1, B1)
      let p3 := if p2.1.c0.x < 0 then (negCol p2.1 0, negCol p2.2 0) else p2
      if 1 < countNonzero p3.1.row0 then Except.error PyErr.consistency
      else if S * p3.2 ≠ p3.1 then Except.error PyErr.transformBroken
      else
        match hnf_loop2 S (p3.1.c1.y.natAbs + p3.1.c2.y.natAbs + 1) p3.1 p3.2 with
        | Except.error e => Except.error e
        | Except.ok (H4, B4) =>
          -- `if H[1,1] == 0`: the source swaps columns 1 and 2 of H ONLY,
          -- leaving B untouched (B would no longer satisfy S·B = H).
          let H5 := if H4.c1.y = 0 then swapColsInt H4 1 2 else H4
          let p6 := if H5.c1.y < 0 then (negCol H5 1, negCol B4 1) else (H5, B4)
          if p6.1.c2.y ≠ 0 then Except.error PyErr.consistency
          else if S * p6.2 ≠ p6.1 then Except.error PyErr.transformBroken
          else
            let p7 := if p6.1.c2.z < 0 then (negCol p6.1 2, negCol p6.2 2) else p6
            if ¬(p7.1.c1.x = 0 ∧ p7.1.c2.x = 0 ∧ p7.1.c2.y = 0) then
              Except.error PyErr.notTriangular
            else if S * p7.2 ≠ p7.1 then Except.error PyErr.transformBroken
            else
              match hnf_loop3 (p7.1.c0.y.natAbs + 1) p7.1 p7.2 with
              | Except.error e => Except.error e
              | Except.ok (H8, B8) =>
                match hnf_loop4 0 (H8.c0.z.natAbs + 1) H8 B8 with
                | Except.error e => Except.error e
                | Except.ok (H9, B9) =>
                  match hnf_loop4 1 (H9.c1.z.natAbs + 1) H9 B9 with
                  | Except.error e => Except.error e
                  | Except.ok (H10, B10) =>
                    if S * B10 ≠ H10 then Except.error PyErr.transformBroken
                    else if ¬(H10.c1.x = 0 ∧ H10.c2.x = 0 ∧ H10.c2.y = 0) then
                      Except.error PyErr.notTriangular
                    else if H10.c0.x < 0 ∨ H10.c0.y < 0 ∨ H10.c1.y < 0 ∨ H10.c0.z < 0
                        ∨ H10.c1.z < 0 ∨ H10.c2.z < 0 then
                      Except.error PyErr.negativeElements
                    else if H10.c1.y < H10.c0.y ∨ H10.c2.z < H10.c0.z
                        ∨ H10.c2.z < H10.c1.z then
                      Except.error PyErr.offDiagTooBig
                    else Except.ok (H10, B10)

/-- Componentwise `np.round` of a matrix to the nearest integers. -/
def roundM (M : Mat3 ℚ) : Mat3 ℤ := ⟨roundV M.c0, roundV M.c1, roundV M.c2⟩

/-- `check_commensurate` (symmetry.py:3229): `N = inv(lattice)·sublattice`;
commensurate iff `np.allclose(N, np.round(N))`.  The source returns the float
`N` when the check fails; the embedding always returns the rounded integer
matrix, which callers only consume when the check succeeded. -/
def check_commensurate (lattice sublattice : Mat3 ℚ) (rtol atol : ℚ) : Bool × Mat3 ℤ :=
  let Nq := lattice.inv * sublattice
  let Nr := roundM Nq
  (allcloseM Nq Nr.toRat rtol atol, Nr)

/-- `reduce_lattice_vector` (symmetry.py:3011): Gaussian-reduce the first two
columns, then replace the third by its shortest representative modulo the
plane lattice of the first two.  The unit normal `v_on = cross/‖cross‖`
appears only in `v_on * (v_on ⋅ v3)` and in `isclose(v_on ⋅ closest_pt, 0)`,
where the square root cancels (`(cr/√q)(cr⋅v3/√q) = cr(cr⋅v3)/q` and
`|x|/√q ≤ atol ↔ x² ≤ atol²·q`), so both are expressed exactly in rational
arithmetic. -/
def reduce_lattice_vector (lattice_vectors : Mat3 ℚ) (rtol atol ε : ℚ) :
    Except PyErr (Mat3 ℚ) :=
  let v1 := lattice_vectors.c0
  let v2 := lattice_vectors.c1
  let v3 := lattice_vectors.c2
  match gaussian_reduction v1 v2 ε with
  | Except.error e => Except.error e
  | Except.ok (v1r, v2r) =>
    let temp : Mat3 ℚ := ⟨v1r, v2r, v3⟩
    if isclose temp.det 0 rtol atol then Except.error PyErr.linearDependence
    else
      let cr := Vec3.cross v1r v2r
      let q := Vec3.nsq cr
      let closest_pt := v3 - (Vec3.dot cr v3 / q) • cr
      let closest_lat := floorV (temp.inv.mulVec closest_pt + ⟨ε, ε, ε⟩)
      if ¬ ((Vec3.dot closest_pt cr) ^ 2 ≤ atol ^ 2 * q) then
        Except.error PyErr.linearDependence
      else
        let l0 := closest_lat
        let l1 := closest_lat + ⟨0, 1, 0⟩
        let l2 := closest_lat + ⟨1, 0, 0⟩
        let l3 := closest_lat + ⟨1, 1, 0⟩
        let c0 := temp.mulVec l0.toRat
        let c1 := temp.mulVec l1.toRat
        let c2 := temp.mulVec l2.toRat
        let c3 := temp.mulVec l3.toRat
        let d0 := Vec3.nsq (c0 - closest_pt)
        let d1 := Vec3.nsq (c1 - closest_pt)
        let d2 := Vec3.nsq (c2 - closest_pt)
        let d3 := Vec3.nsq (c3 - closest_pt)
        let corner := if d0 ≤ d1 ∧ d0 ≤ d2 ∧ d0 ≤ d3 then c0
          else if d1 ≤ d2 ∧ d1 ≤ d3 then c1
          else if d2 ≤ d3 then c2
          else c3
        let v3r := v3 - corner
        let reduced : Mat3 ℚ := ⟨v1r, v2r, v3r⟩
        if (check_commensurate reduced lattice_vectors rtol atol).1 then
          Except.ok reduced
        else Except.error PyErr.incommensurate

/-- `check_minkowski_conditions` (symmetry.py:3107): the twelve toleranced
norm comparisons; each source test `(norm(u) + eps) < norm(w)` marks failure,
so the check passes iff every comparison (encoded exactly as
`sqrtAddEpsLtSqrt`) is false. -/
def check_minkowski_conditions (M : Mat3 ℚ) (ε : ℚ) : Bool :=
  let b1 := M.c0
  let b2 := M.c1
  let b3 := M.c2
  !(sqrtAddEpsLtSqrt (Vec3.nsq b2) ε (Vec3.nsq b1))
    && !(sqrtAddEpsLtSqrt (Vec3.nsq b3) ε (Vec3.nsq b2))
    && !(sqrtAddEpsLtSqrt (Vec3.nsq (b1 + b2)) ε (Vec3.nsq b2))
    && !(sqrtAddEpsLtSqrt (Vec3.nsq (b1 - b2)) ε (Vec3.nsq b2))
    && !(sqrtAddEpsLtSqrt (Vec3.nsq (b1 + b3)) ε (Vec3.nsq b3))
    && !(sqrtAddEpsLtSqrt (Vec3.nsq (b3 - b1)) ε (Vec3.nsq b3))
    && !(sqrtAddEpsLtSqrt (Vec3.nsq (b2 + b3)) ε (Vec3.nsq b3))
    && !(sqrtAddEpsLtSqrt (Vec3.nsq (b3 - b2)) ε (Vec3.nsq b3))
    && !(sqrtAddEpsLtSqrt (Vec3.nsq (b1 + b2 + b3)) ε (Vec3.nsq b3))
    && !(sqrtAddEpsLtSqrt (Vec3.nsq (b1 - b2 + b3)) ε (Vec3.nsq b3))
    && !(sqrtAddEpsLtSqrt (Vec3.nsq (b1 + b2 - b3)) ε (Vec3.nsq b3))
    && !(sqrtAddEpsLtSqrt (Vec3.nsq (b1 - b2 - b3)) ε (Vec3.nsq b3))

/-- Stable ascending sort of the three columns by Euclidean norm
(`lat_vecs.T[np.argsort(norm(lat_vecs, axis=0))].T`), with norm comparisons
expressed through squared norms. -/
def sortCols (M : Mat3 ℚ) : Mat3 ℚ :=
  let a := M.c0
  let b := M.c1
  let c := M.c2
  let p := if Vec3.nsq b < Vec3.nsq a then (b, a) else (a, b)
  if Vec3.nsq c < Vec3.nsq p.2 then
    if Vec3.nsq c < Vec3.nsq p.1 then ⟨c, p.1, p.2⟩ else ⟨p.1, c, p.2⟩
  else ⟨p.1, p.2, c⟩

/-- `swap_rows_columns(lat_vecs, 1, 2, rows=False)`: swap the second and
third columns. -/
def swapC12 (M : Mat3 ℚ) : Mat3 ℚ := ⟨M.c0, M.c2, M.c1⟩

/-- The `for _ in range(limit)` loop of `minkowski_reduce_basis`
(symmetry.py:3200-3209): sort by norm, reduce the last vector, and break when
`norm(col3) ≥ norm(col2) − eps`. -/
def minkowski_loop (rtol atol ε : ℚ) : ℕ → Mat3 ℚ → Except PyErr (Mat3 ℚ)
  | 0, M => Except.ok M
  | n + 1, M =>
    let Ms := sortCols M
    match reduce_lattice_vector Ms rtol atol ε with
    | Except.error e => Except.error e
    | Except.ok M' =>
      if sqrtAddEpsLtSqrt (Vec3.nsq M'.c2) ε (Vec3.nsq M'.c1) then
        minkowski_loop rtol atol ε n M'
      else Except.ok M'

/-- `minkowski_reduce_basis` (symmetry.py:3175): reject near-singular input,
iterate the reduction loop (limit 10), verify the Minkowski conditions,
sort ascending, and swap the last two columns when the determinant is
negative beyond `eps`. -/
def minkowski_reduce_basis (lattice_basis : Mat3 ℚ) (rtol atol ε : ℚ) :
    Except PyErr (Mat3 ℚ) :=
  if isclose lattice_basis.det 0 rtol atol then Except.error PyErr.linearDependence
  else
    match minkowski_loop rtol atol ε 10 lattice_basis with
    | Except.error e => Except.error e
    | Except.ok M' =>
      if ¬ check_minkowski_conditions M' ε then Except.error PyErr.convergence
      else
        let Ms := sortCols M'
        Except.ok (if Ms.det + ε < 0 then swapC12 Ms else Ms)

/-- Coordinate-system selector (`coords="Cart"` / `coords="lat"`); any other
string raises in the source, so the embedding uses an enumeration. -/
inductive Coords : Type where
  | cart
  | lat
deriving DecidableEq, Repr

/-- One component of `bring_into_cell`: `%1` into `[0,1)` followed by the
`np.isclose(·, 1)` fix-up that sends values within tolerance of 1 to 0. -/
def bringComp (rtol atol q : ℚ) : ℚ :=
  let m := fract q
  if isclose m 1 rtol atol then 0 else m

/-- The `centered=True` shift of one lattice coordinate into `(-1/2, 1/2]`:
values above 1/2 are shifted down by 1, then values within tolerance of 1/2
are set to `-1/2`. -/
def centerComp (rtol atol m : ℚ) : ℚ :=
  let m' := if 1 / 2 < m then m - 1 else m
  if isclose m' (1 / 2) rtol atol then -(1 / 2) else m'

/-- `bring_into_cell` (symmetry.py:2186) for one point: convert to lattice
coordinates with the exact inverse of `rlat_vecs`, fold each coordinate with
`%1` and the near-1 fix-up, optionally center, and convert back to Cartesian
coordinates when requested. -/
def bring_into_cell (p : Vec3 ℚ) (rlat_vecs : Mat3 ℚ) (rtol atol : ℚ)
    (coords : Coords) (centered : Bool) : Vec3 ℚ :=
  let lat := (rlat_vecs.inv).mulVec p
  let lat1 := lat.map (bringComp rtol atol)
  let lat2 := if centered then lat1.map (centerComp rtol atol) else lat1
  match coords with
  | Coords.cart => rlat_vecs.mulVec lat2
  | Coords.lat => lat2

/-- `bring_into_cell` applied to a list of points (the function accepts a
point or a list of points; a list is processed row-wise). -/
def bring_into_cell_list (ps : List (Vec3 ℚ)) (rlat_vecs : Mat3 ℚ) (rtol atol : ℚ)
    (coords : Coords) (centered : Bool) : List (Vec3 ℚ) :=
  ps.map (fun p => bring_into_cell p rlat_vecs rtol atol coords centered)

/-- One step of the search for `int(np.ceil(√q + eps))`: `√q + eps ≤ n` holds
for an integer `n` iff `0 ≤ n - eps` and `q ≤ (n - eps)²` (for `0 ≤ q`). -/
def sqrtAddEpsLe (q eps : ℚ) (n : ℤ) : Bool :=
  decide (0 ≤ (n : ℚ) - eps) && decide (q ≤ ((n : ℚ) - eps) ^ 2)

def ceilSqrtAddEpsGo (q eps : ℚ) : ℕ → ℤ → ℤ
  | 0, n => n
  | fuel + 1, n => if sqrtAddEpsLe q eps n then n else ceilSqrtAddEpsGo q eps fuel (n + 1)

/-- Exact embedding of `int(np.ceil(√q + eps))` for `0 ≤ q`, `0 ≤ eps`: the
least integer `n ≥ 0` with `√q + eps ≤ n`, found by upward search (the fuel
`⌈q⌉ + ⌈eps⌉ + 2` suffices since `√q ≤ ⌈q⌉ + 1`). -/
def ceilSqrtAddEps (q eps : ℚ) : ℤ :=
  ceilSqrtAddEpsGo q eps (⌈q⌉ + ⌈eps⌉ + 2).toNat 0

/-- `range(-m, m+1)` as a list of integers. -/
def intRange (m : ℤ) : List ℤ :=
  (List.range (2 * m + 1).toNat).map (fun t => -m + t)

/-- `search_sphere` (symmetry.py:2695): all lattice points within the sphere
whose radius is the longest lattice vector.  The Gram–Schmidt steps are exact:
`(a·b_hat)·b_hat = (a·b / |b|²)·b`, so no square roots remain; the integer
search bounds `int(np.ceil(max_norm/|·| + eps))` are computed exactly with
`ceilSqrtAddEps` on the squared ratio, and the inclusion test
`pt·pt - eps < max_norm²` is rational. -/
def search_sphere (lat_vecs : Mat3 ℚ) (eps : ℚ) : List (Vec3 ℚ) :=
  let a0 := lat_vecs.c0
  let a1 := lat_vecs.c1
  let a2 := lat_vecs.c2
  let a1p := a1 - (Vec3.dot a1 a0 / Vec3.nsq a0) • a0
  let a2p := a2 - (Vec3.dot a2 a1p / Vec3.nsq a1p) • a1p - (Vec3.dot a2 a0 / Vec3.nsq a0) • a0
  let maxnsq := max3 (Vec3.nsq a0) (Vec3.nsq a1) (Vec3.nsq a2)
  let m0 := ceilSqrtAddEps (maxnsq / Vec3.nsq a0) eps
  let m1 := ceilSqrtAddEps (maxnsq / Vec3.nsq a1p) eps
  let m2 := ceilSqrtAddEps (maxnsq / Vec3.nsq a2p) eps
  (intRange m0).flatMap (fun i =>
    (intRange m1).flatMap (fun j =>
      (intRange m2).filterMap (fun k =>
        let pt := lat_vecs.mulVec ⟨(i : ℚ), (j : ℚ), (k : ℚ)⟩
        if Vec3.nsq pt - eps < maxnsq then some pt else none)))

/-- Modelled from the spec ("Deduplicate accepted operators"):
`BZI.utilities.check_contained([op], group, rtol, atol)` — whether `op` is
already `np.allclose`-equal to a member of `group`. -/
def check_contained_op (op : Mat3 ℚ) (group : List (Mat3 ℚ)) (rtol atol : ℚ) : Bool :=
  group.any (fun q => allcloseM op q rtol atol)

/-- `get_point_group` (symmetry.py:2739): scan ordered triples of distinct
sphere points (in the index order of `itertools.permutations`), accept a
triple when the three squared norms match those of the lattice vectors within
`np.isclose` tolerance, the absolute determinant matches, and the induced map
`op = new_lat_vecs · lat_vecs⁻¹` is orthogonal within `np.allclose` tolerance;
deduplicate with `check_contained`. -/
def get_point_group (lat_vecs : Mat3 ℚ) (rtol atol eps : ℚ) : List (Mat3 ℚ) :=
  let pts := search_sphere lat_vecs eps
  let a1 := lat_vecs.c0
  let a2 := lat_vecs.c1
  let a3 := lat_vecs.c2
  let inv_lat_vecs := lat_vecs.inv
  let idx := List.range pts.length
  idx.foldl (fun acc1 i =>
    idx.foldl (fun acc2 j =>
      idx.foldl (fun acc3 k =>
        if i = j ∨ i = k ∨ j = k then acc3
        else
          let p1 := pts.getD i 0
          let p2 := pts.getD j 0
          let p3 := pts.getD k 0
          if isclose (Vec3.dot p1 p1) (Vec3.dot a1 a1) rtol atol
              && isclose (Vec3.dot p2 p2) (Vec3.dot a2 a2) rtol atol
              && isclose (Vec3.dot p3 p3) (Vec3.dot a3 a3) rtol atol then
            let new_lat_vecs : Mat3 ℚ := ⟨p1, p2, p3⟩
            if isclose |new_lat_vecs.det| |lat_vecs.det| rtol atol then
              let op := new_lat_vecs * inv_lat_vecs
              if allcloseM 1 (op * op.transpose) rtol atol then
                if check_contained_op op acc3 rtol atol then acc3 else acc3 ++ [op]
              else acc3
            else acc3
          else acc3) acc2) acc1) []

def exceptIsOk {E A : Type} : Except E A → Bool
  | Except.ok _ => true
  | Except.error _ => false

/-- Modelled from the spec ("Equivalence of two atoms after transformation is
'same label AND position equal within tolerance'"):
`check_atom_equivalency` (symmetry.py:2812), whose helpers
`find_point_indices`/`check_contained` live in the absent `BZI.utilities` —
the atom is equivalent to a member of the basis sharing its label whose
position is `np.allclose` to it. -/
def check_atom_equivalency (atom_label_i : ℤ) (atom_position_i : Vec3 ℚ)
    (atom_labels : List ℤ) (atom_positions : List (Vec3 ℚ)) (rtol atol : ℚ) : Bool :=
  (List.zip atom_labels atom_positions).any
    (fun a => a.1 == atom_label_i && allcloseV a.2 atom_position_i rtol atol)

/-- The preprocessing of `get_space_group` (symmetry.py:2846-2854): convert
lattice-coordinate positions to Cartesian when requested, then fold every atom
position into the first unit cell. -/
def atomicBasisOf (lattice_vectors : Mat3 ℚ) (atom_positions : List (Vec3 ℚ))
    (coords : Coords) (rtol atol : ℚ) : List (Vec3 ℚ) :=
  let basis0 := match coords with
    | Coords.lat => atom_positions.map (fun p => lattice_vectors.mulVec p)
    | Coords.cart => atom_positions
  basis0.map (fun ab => bring_into_cell ab lattice_vectors rtol atol Coords.cart false)

/-- The accept test of `get_space_group` for one (operator, translation)
pair: rotating, translating and folding every atom of the basis lands on an
atom of the same label (symmetry.py:2890-2905). -/
def spaceOpValid (lattice_vectors : Mat3 ℚ) (atom_labels : List ℤ)
    (atom_positions : List (Vec3 ℚ)) (coords : Coords) (rtol atol : ℚ)
    (op : Mat3 ℚ) (t : Vec3 ℚ) : Bool :=
  let atomic_basis := atomicBasisOf lattice_vectors atom_positions coords rtol atol
  (List.zip atom_labels atomic_basis).all (fun aj =>
    check_atom_equivalency aj.1
      (bring_into_cell (op.mulVec aj.2 + t) lattice_vectors rtol atol Coords.cart false)
      atom_labels atomic_basis rtol atol)

/-- `get_space_group` (symmetry.py:2788): for every lattice point-group
operator and every atom of the first atom's type, form the candidate
fractional translation from the rotated first atom to that atom (folded into
the cell), keep the (operator, translation) pair when it maps every atom onto
an atom of the same label, and return the parallel operator/translation
lists; indexing `atom_labels[0]` / `atomic_basis[0]` of an empty basis raises
`IndexError`. -/
def get_space_group (lattice_vectors : Mat3 ℚ) (atom_labels : List ℤ)
    (atom_positions : List (Vec3 ℚ)) (coords : Coords) (rtol atol eps : ℚ) :
    Except PyErr (List (Mat3 ℚ) × List (Vec3 ℚ)) :=
  let atomic_basis := atomicBasisOf lattice_vectors atom_positions coords rtol atol
  let lattice_pointgroup := get_point_group lattice_vectors rtol atol eps
  match atom_labels, atomic_basis with
  | first_atom_type :: _, first_atom_pos :: _ =>
    let zipped := List.zip atom_labels atomic_basis
    let pairs := lattice_pointgroup.flatMap (fun lpg =>
      let rot_first_atom_pos := lpg.mulVec first_atom_pos
      zipped.filterMap (fun ai =>
        if first_atom_type ≠ ai.1 then none
        else
          let frac_trans := bring_into_cell (ai.2 - rot_first_atom_pos) lattice_vectors
            rtol atol Coords.cart false
          if zipped.all (fun aj =>
              check_atom_equivalency aj.1
                (bring_into_cell (lpg.mulVec aj.2 + frac_trans) lattice_vectors rtol atol
                  Coords.cart false)
                atom_labels atomic_basis rtol atol) then
            some (lpg, frac_trans)
          else none))
    Except.ok (pairs.map Prod.fst, pairs.map Prod.snd)
  | _, _ => Except.error PyErr.indexError

/-- The inner loop shared by `reduce_kpoint_list` (symmetry.py:2313-2325) and
`find_orbits` (symmetry.py:2491-2511): apply each symmetry operator to the
orbit representative (`apply` is `np.dot(pg, ur_kpt)`, rotation only, in the
source), fold into the first cell with `bring_into_cell` at its default
tolerances, discard operators whose image has non-integral grid coordinates
(`np.allclose` against `np.round`, with tolerances `artol`/`aatol`), hash the
image, and mark it visited with the current orbit label, incrementing the
orbit weight; a hash outside the hashtable's key range raises `KeyError`. -/
def orbit_inner {α : Type} (apply : α → Vec3 ℚ → Vec3 ℚ) (rlat invK : Mat3 ℚ)
    (L : Mat3 ℤ) (D : Vec3 ℤ) (shiftC : Vec3 ℚ) (artol aatol : ℚ) (re : ℕ)
    (cOrbit : ℕ) (ur_kpt : Vec3 ℚ) :
    List α → List (Option ℕ) → ℕ → Except PyErr (List (Option ℕ) × ℕ)
  | [], ht, wt => Except.ok (ht, wt)
  | op :: rest, ht, wt =>
    let rot_kpt := bring_into_cell (apply op ur_kpt) rlat (1/100000) (1/100000000)
      Coords.cart false
    let g := invK.mulVec (rot_kpt - shiftC)
    if !allcloseV g (roundV g).toRat artol aatol then
      orbit_inner apply rlat invK L D shiftC artol aatol re cOrbit ur_kpt rest ht wt
    else
      let kh := find_kpt_index (rot_kpt - shiftC) invK L D re
      if kh < 0 || ht.length ≤ kh.toNat then Except.error PyErr.keyError
      else if ht.getD kh.toNat none = none then
        orbit_inner apply rlat invK L D shiftC artol aatol re cOrbit ur_kpt rest
          (ht.set kh.toNat (some cOrbit)) (wt + 1)
      else
        orbit_inner apply rlat invK L D shiftC artol aatol re cOrbit ur_kpt rest ht wt

/-- The outer traversal shared by `reduce_kpoint_list` (symmetry.py:2302) and
`find_orbits` (symmetry.py:2463): hash each unreduced k-point, skip it if its
hashtable entry is already set, otherwise open a new orbit (incrementing the
orbit counter, recording the representative's index and an initial weight of
1) and run the inner operator loop.  The `kpt_index_conv` bookkeeping of
`find_orbits` only affects the `full_orbit=True` output and is omitted in
this `full_orbit=False` embedding. -/
def orbit_outer {α : Type} (apply : α → Vec3 ℚ → Vec3 ℚ) (ops : List α)
    (rlat invK : Mat3 ℚ) (L : Mat3 ℤ) (D : Vec3 ℤ) (shiftC : Vec3 ℚ)
    (artol aatol : ℚ) (re : ℕ) :
    List (Vec3 ℚ) → ℕ → List (Option ℕ) → ℕ → List ℕ → List ℕ →
    Except PyErr (ℕ × List ℕ × List ℕ)
  | [], _, _, c, iF, iW => Except.ok (c, iF, iW)
  | kpt :: rest, i, ht, c, iF, iW =>
    let kh := find_kpt_index (kpt - shiftC) invK L D re
    if kh < 0 || ht.length ≤ kh.toNat then Except.error PyErr.keyError
    else if ht.getD kh.toNat none ≠ none then
      orbit_outer apply ops rlat invK L D shiftC artol aatol re rest (i + 1) ht c iF iW
    else
      match orbit_inner apply rlat invK L D shiftC artol aatol re (c + 1) kpt ops
          (ht.set kh.toNat (some (c + 1))) 1 with
      | Except.error e => Except.error e
      | Except.ok (ht2, wt) =>
        orbit_outer apply ops rlat invK L D shiftC artol aatol re rest (i + 1) ht2 (c + 1)
          (iF ++ [i]) (iW ++ [wt])

/-- `reduce_kpoint_list` (symmetry.py:2225), parametrized by the point group
(the source calls `find_point_group`, a wrapper around the external phenum
`get_lattice_pointGroup`) and by the external phenum `SmithNormalForm`
(`snf H = (S, L, R)` with `L·H·R = S`): linear-dependence and cell-volume
checks, commensurability, `HermiteNormalForm`, SNF diagonal `D`, the orbit
traversal, and finally the consistency check that the orbit weights of the
`cOrbit` orbits sum to the unreduced point count, raising a `ValueError`
otherwise.  The final loop reads exactly the first `cOrbit` entries of the
weight and representative tables (`take`), which by construction is all of
them. -/
def reduce_kpoint_list (pointgroup : List (Mat3 ℚ))
    (snf : Mat3 ℤ → Mat3 ℤ × Mat3 ℤ × Mat3 ℤ) (kpoint_list : List (Vec3 ℚ))
    (lattice_vectors grid_vectors : Mat3 ℚ) (shift : Vec3 ℚ) (eps : ℕ)
    (rtol atol : ℚ) : Except PyErr (List (Vec3 ℚ) × List ℕ) :=
  if lattice_vectors.det = 0 then Except.error PyErr.linearDependence
  else if grid_vectors.det = 0 then Except.error PyErr.linearDependence
  else if |lattice_vectors.det| < |grid_vectors.det| then Except.error PyErr.volumeTooBig
  else
    let shiftC := grid_vectors.mulVec shift
    let cn := check_commensurate grid_vectors lattice_vectors rtol atol
    if !cn.1 then Except.error PyErr.incommensurate
    else
      match HermiteNormalForm cn.2 with
      | Except.error e => Except.error e
      | Except.ok HB =>
        let SLR := snf HB.1
        let D : Vec3 ℤ := ⟨SLR.1.c0.x, SLR.1.c1.y, SLR.1.c2.z⟩
        let invK := grid_vectors.inv
        let nUR := kpoint_list.length
        match orbit_outer (fun (pg : Mat3 ℚ) k => pg.mulVec k) pointgroup lattice_vectors
            invK SLR.2.1 D shiftC (1/100000) (1/100000000) eps kpoint_list 0
            (List.replicate nUR none) 0 [] [] with
        | Except.error e => Except.error e
        | Except.ok cFW =>
          let kpoint_weights := cFW.2.2
          let total := (kpoint_weights.take cFW.1).sum
          let reduced := (cFW.2.1.take cFW.1).map (fun idx => kpoint_list.getD idx 0)
          if total ≠ nUR then Except.error PyErr.consistency
          else Except.ok (reduced, kpoint_weights)

/-- The preamble of `find_orbits` (symmetry.py:2386-2460): linear-dependence
checks on the three vector sets, the cell-volume check (note the source adds
`atol` to the reciprocal-cell determinant before comparing), the shift in
Cartesian coordinates, commensurability, `HermiteNormalForm`, the SNF
diagonal (via the external phenum `SmithNormalForm`, passed as `snf`), and
the space group of the decorated lattice.  Returns the data the orbit
traversal consumes. -/
def find_orbits_setup (snf : Mat3 ℤ → Mat3 ℤ × Mat3 ℤ × Mat3 ℤ)
    (lattice_vectors rlattice_vectors grid_vectors : Mat3 ℚ) (shift : Vec3 ℚ)
    (atom_labels : List ℤ) (atom_positions : List (Vec3 ℚ)) (atom_coords : Coords)
    (eps : ℚ) (rtol atol : ℚ) :
    Except PyErr ((List (Mat3 ℚ) × List (Vec3 ℚ)) × Mat3 ℤ × Vec3 ℤ × Vec3 ℚ) :=
  if lattice_vectors.det = 0 then Except.error PyErr.linearDependence
  else if rlattice_vectors.det = 0 then Except.error PyErr.linearDependence
  else if grid_vectors.det = 0 then Except.error PyErr.linearDependence
  else if |rlattice_vectors.det + atol| < |grid_vectors.det| then
    Except.error PyErr.volumeTooBig
  else
    let shiftC := grid_vectors.mulVec shift
    let cn := check_commensurate grid_vectors rlattice_vectors rtol atol
    if !cn.1 then Except.error PyErr.incommensurate
    else
      match HermiteNormalForm cn.2 with
      | Except.error e => Except.error e
      | Except.ok HB =>
        let SLR := snf HB.1
        let D : Vec3 ℤ := ⟨SLR.1.c0.x, SLR.1.c1.y, SLR.1.c2.z⟩
        match get_space_group lattice_vectors atom_labels atom_positions atom_coords
            rtol atol eps with
        | Except.error e => Except.error e
        | Except.ok pgtr => Except.ok (pgtr, SLR.2.1, D, shiftC)

/-- The translations stored in a successful `find_orbits_setup` result (the
fractional translations of the space group); empty on error. -/
def setupTranslations
    (r : Except PyErr ((List (Mat3 ℚ) × List (Vec3 ℚ)) × Mat3 ℤ × Vec3 ℤ × Vec3 ℚ)) :
    List (Vec3 ℚ) :=
  match r with
  | Except.ok x => x.1.2
  | Except.error _ => []

/-- `find_orbits` (symmetry.py:2340) with `full_orbit=False` and
`kpt_coords="cart"`, parametrized by the point transformation applied in the
orbit loop: the setup above, then the orbit traversal over the space group's
(operator, translation) pairs with the grid-coordinate integrality test at
`rtol=rtol` and `np.allclose`'s default `atol`, and the representative
k-points and orbit weights as output — with no consistency check on the
weight sum. -/
def find_orbits_with (apply : Mat3 ℚ × Vec3 ℚ → Vec3 ℚ → Vec3 ℚ)
    (snf : Mat3 ℤ → Mat3 ℤ × Mat3 ℤ × Mat3 ℤ) (kpoint_list : List (Vec3 ℚ))
    (lattice_vectors rlattice_vectors grid_vectors : Mat3 ℚ) (shift : Vec3 ℚ)
    (atom_labels : List ℤ) (atom_positions : List (Vec3 ℚ)) (atom_coords : Coords)
    (eps : ℚ) (rounding_eps : ℕ) (rtol atol : ℚ) :
    Except PyErr (List (Vec3 ℚ) × List ℕ) :=
  match find_orbits_setup snf lattice_vectors rlattice_vectors grid_vectors shift
      atom_labels atom_positions atom_coords eps rtol atol with
  | Except.error e => Except.error e
  | Except.ok x =>
    let invK := grid_vectors.inv
    let nUR := kpoint_list.length
    match orbit_outer apply (List.zip x.1.1 x.1.2) rlattice_vectors invK x.2.1 x.2.2.1
        x.2.2.2 rtol (1/100000000) rounding_eps kpoint_list 0
        (List.replicate nUR none) 0 [] [] with
    | Except.error e => Except.error e
    | Except.ok cFW =>
      Except.ok (cFW.2.1.map (fun idx => kpoint_list.getD idx 0), cFW.2.2)

/-- `find_orbits` as the source runs it: only the rotation `np.dot(pg, ur_kpt)`
is applied to the k-point; the paired fractional translation is never used in
the orbit loop. -/
def find_orbits (snf : Mat3 ℤ → Mat3 ℤ × Mat3 ℤ × Mat3 ℤ) (kpoint_list : List (Vec3 ℚ))
    (lattice_vectors rlattice_vectors grid_vectors : Mat3 ℚ) (shift : Vec3 ℚ)
    (atom_labels : List ℤ) (atom_positions : List (Vec3 ℚ)) (atom_coords : Coords)
    (eps : ℚ) (rounding_eps : ℕ) (rtol atol : ℚ) :
    Except PyErr (List (Vec3 ℚ) × List ℕ) :=
  find_orbits_with (fun op k => op.1.mulVec k) snf kpoint_list lattice_vectors
    rlattice_vectors grid_vectors shift atom_labels atom_positions atom_coords eps
    rounding_eps rtol atol

/-- The claim's reading of `find_orbits`: each space-group pair is applied as
rotation followed by the paired fractional translation. -/
def find_orbits_spec (snf : Mat3 ℤ → Mat3 ℤ × Mat3 ℤ × Mat3 ℤ)
    (kpoint_list : List (Vec3 ℚ))
    (lattice_vectors rlattice_vectors grid_vectors : Mat3 ℚ) (shift : Vec3 ℚ)
    (atom_labels : List ℤ) (atom_positions : List (Vec3 ℚ)) (atom_coords : Coords)
    (eps : ℚ) (rounding_eps : ℕ) (rtol atol : ℚ) :
    Except PyErr (List (Vec3 ℚ) × List ℕ) :=
  find_orbits_with (fun op k => op.1.mulVec k + op.2) snf kpoint_list lattice_vectors
    rlattice_vectors grid_vectors shift atom_labels atom_positions atom_coords eps
    rounding_eps rtol atol

/-- The trivial Smith normal form used for matrices that are already diagonal
with each entry dividing the next: `S = H`, `L = R = 1`. -/
def snfTriv (H : Mat3 ℤ) : Mat3 ℤ × Mat3 ℤ × Mat3 ℤ := (H, 1, 1)

theorem mulVec_mulVec {α : Type} [CommRing α] (A B : Mat3 α) (v : Vec3 α) :
    A.mulVec (B.mulVec v) = (A * B).mulVec v := by
  rcases A with ⟨⟨a, b, c⟩, ⟨d, e, f⟩, ⟨g, h, i⟩⟩
  rcases B with ⟨⟨a', b', c'⟩, ⟨d', e', f'⟩, ⟨g', h', i'⟩⟩
  rcases v with ⟨vx, vy, vz⟩
  simp only [Mat3.mul_def, Mat3.mulVec, Vec3.smul_def, Vec3.add_def, Vec3.ext_iff]
  refine ⟨by ring, by ring, by ring⟩

theorem one_mulVec {α : Type} [CommRing α] (v : Vec3 α) :
    (1 : Mat3 α).mulVec v = v := by
  rcases v with ⟨vx, vy, vz⟩
  simp only [Mat3.one_def, Mat3.mulVec, Vec3.smul_def, Vec3.add_def, Vec3.ext_iff]
  refine ⟨by ring, by ring, by ring⟩

theorem bringComp_mem (rtol atol q : ℚ) (hr : 0 ≤ rtol) (ha : 0 ≤ atol)
    (hsum : atol + rtol < 1) :
    0 ≤ bringComp rtol atol q ∧ bringComp rtol atol q < 1 ∧
      isclose (bringComp rtol atol q) 1 rtol atol = false := by
  unfold bringComp
  by_cases h : isclose (fract q) 1 rtol atol = true
  · simp only [h, if_true]
    refine ⟨le_refl 0, by norm_num, ?_⟩
    unfold isclose
    apply decide_eq_false
    intro hc
    rw [abs_one, mul_one] at hc
    have : |(0 : ℚ) - 1| = 1 := by norm_num
    rw [this] at hc
    linarith
  · rw [Bool.not_eq_true] at h
    simp only [h, if_false, Bool.false_eq_true]
    have h0 : (0 : ℚ) ≤ fract q := by
      unfold fract
      have := Int.floor_le q
      linarith
    have h1 : fract q < 1 := by
      unfold fract
      have := Int.lt_floor_add_one q
      linarith
    exact ⟨h0, h1, by simp [h]⟩

theorem bringComp_fixed (rtol atol q : ℚ) (h0 : 0 ≤ q) (h1 : q < 1)
    (hni : isclose q 1 rtol atol = false) :
    bringComp rtol atol q = q := by
  have hq : fract q = q := by
    unfold fract
    have : ⌊q⌋ = 0 := Int.floor_eq_zero_iff.mpr ⟨h0, h1⟩
    rw [this]
    norm_num
  unfold bringComp
  simp only [hq, hni]
  simp

theorem bringVec_idem (rtol atol : ℚ) (hr : 0 ≤ rtol) (ha : 0 ≤ atol)
    (hsum : atol + rtol < 1) (w : Vec3 ℚ) :
    (w.map (bringComp rtol atol)).map (bringComp rtol atol)
      = w.map (bringComp rtol atol) := by
  rcases w with ⟨wx, wy, wz⟩
  simp only [Vec3.map, Vec3.ext_iff]
  refine ⟨?_, ?_, ?_⟩ <;>
  · apply bringComp_fixed
    · exact (bringComp_mem rtol atol _ hr ha hsum).1
    · exact (bringComp_mem rtol atol _ hr ha hsum).2.1
    · exact (bringComp_mem rtol atol _ hr ha hsum).2.2

theorem inv_cancel_vec {R : Mat3 ℚ} (hdet : R.det ≠ 0) (v : Vec3 ℚ) :
    (R.inv).mulVec (R.mulVec v) = v := by
  rw [mulVec_mulVec, Mat3.inv_mul hdet, one_mulVec]

/-- C9, counterexample: with lattice vectors `diag(2,1,1)` and the point
`(1,0,0)`, `bring_into_cell` in lattice-coordinate mode returns `(1/2,0,0)`,
but applying `bring_into_cell` to that output returns `(1/4,0,0)`: the output
is in lattice coordinates while the function always interprets its input as
Cartesian, so re-application divides by the lattice again.  This refutes the
claim that re-applying `bring_into_cell` to its own output is the identity in
both coordinate modes. -/
theorem bring_into_cell_lat_not_idempotent :
    bring_into_cell
        (bring_into_cell ⟨1, 0, 0⟩ ⟨⟨2, 0, 0⟩, ⟨0, 1, 0⟩, ⟨0, 0, 1⟩⟩
          (1 / 100000) (1 / 100000000) Coords.lat false)
        ⟨⟨2, 0, 0⟩, ⟨0, 1, 0⟩, ⟨0, 0, 1⟩⟩ (1 / 100000) (1 / 100000000) Coords.lat false
      ≠ bring_into_cell ⟨1, 0, 0⟩ ⟨⟨2, 0, 0⟩, ⟨0, 1, 0⟩, ⟨0, 0, 1⟩⟩
          (1 / 100000) (1 / 100000000) Coords.lat false := by
  decide

/-- C9, amended: for every point and every nonsingular lattice-vector matrix,
`bring_into_cell` is idempotent in the Cartesian mode; in lattice mode,
folding the Cartesian representative of the output (`R ⬝ output`) returns the
output again.  This also holds pointwise for lists of points (the list form of
the function maps over the rows).  Tolerances must satisfy
`0 ≤ rtol`, `0 ≤ atol`, `atol + rtol < 1` (the code's defaults do). -/
theorem bring_into_cell_idempotent (R : Mat3 ℚ) (rtol atol : ℚ) (p : Vec3 ℚ)
    (ps : List (Vec3 ℚ)) (hdet : R.det ≠ 0) (hr : 0 ≤ rtol) (ha : 0 ≤ atol)
    (hsum : atol + rtol < 1) :
    bring_into_cell (bring_into_cell p R rtol atol Coords.cart false) R rtol atol
        Coords.cart false
      = bring_into_cell p R rtol atol Coords.cart false
    ∧ bring_into_cell (R.mulVec (bring_into_cell p R rtol atol Coords.lat false)) R
        rtol atol Coords.lat false
      = bring_into_cell p R rtol atol Coords.lat false
    ∧ bring_into_cell_list (bring_into_cell_list ps R rtol atol Coords.cart false) R
        rtol atol Coords.cart false
      = bring_into_cell_list ps R rtol atol Coords.cart false := by
  have hpt : ∀ q : Vec3 ℚ,
      bring_into_cell (bring_into_cell q R rtol atol Coords.cart false) R rtol atol
        Coords.cart false = bring_into_cell q R rtol atol Coords.cart false := by
    intro q
    show R.mulVec ((((R.inv).mulVec
        (R.mulVec (((R.inv).mulVec q).map (bringComp rtol atol)))).map
          (bringComp rtol atol)))
      = R.mulVec (((R.inv).mulVec q).map (bringComp rtol atol))
    rw [inv_cancel_vec hdet, bringVec_idem rtol atol hr ha hsum]
  refine ⟨hpt p, ?_, ?_⟩
  · show (((R.inv).mulVec
        (R.mulVec (((R.inv).mulVec p).map (bringComp rtol atol)))).map
          (bringComp rtol atol))
      = ((R.inv).mulVec p).map (bringComp rtol atol)
    rw [inv_cancel_vec hdet, bringVec_idem rtol atol hr ha hsum]
  · unfold bring_into_cell_list
    rw [List.map_map]
    apply List.map_congr_left
    intro q _
    exact hpt q

/-- Witness for `bring_into_cell_idempotent` at a concrete nonsingular
lattice, point, list, and the code's default tolerances. -/
theorem bring_into_cell_idempotent_witness :
    ((⟨⟨2, 0, 0⟩, ⟨0, 1, 0⟩, ⟨0, 0, 1⟩⟩ : Mat3 ℚ).det ≠ 0 ∧ (0 : ℚ) ≤ 1 / 100000 ∧
        (0 : ℚ) ≤ 1 / 100000000 ∧ (1 / 100000000 : ℚ) + 1 / 100000 < 1) ∧
      (bring_into_cell
          (bring_into_cell ⟨1, 0, 0⟩ ⟨⟨2, 0, 0⟩, ⟨0, 1, 0⟩, ⟨0, 0, 1⟩⟩ (1 / 100000)
            (1 / 100000000) Coords.cart false)
          ⟨⟨2, 0, 0⟩, ⟨0, 1, 0⟩, ⟨0, 0, 1⟩⟩ (1 / 100000) (1 / 100000000) Coords.cart false
        = bring_into_cell ⟨1, 0, 0⟩ ⟨⟨2, 0, 0⟩, ⟨0, 1, 0⟩, ⟨0, 0, 1⟩⟩ (1 / 100000)
            (1 / 100000000) Coords.cart false
      ∧ bring_into_cell
          ((⟨⟨2, 0, 0⟩, ⟨0, 1, 0⟩, ⟨0, 0, 1⟩⟩ : Mat3 ℚ).mulVec
            (bring_into_cell ⟨1, 0, 0⟩ ⟨⟨2, 0, 0⟩, ⟨0, 1, 0⟩, ⟨0, 0, 1⟩⟩ (1 / 100000)
              (1 / 100000000) Coords.lat false))
          ⟨⟨2, 0, 0⟩, ⟨0, 1, 0⟩, ⟨0, 0, 1⟩⟩ (1 / 100000) (1 / 100000000) Coords.lat false
        = bring_into_cell ⟨1, 0, 0⟩ ⟨⟨2, 0, 0⟩, ⟨0, 1, 0⟩, ⟨0, 0, 1⟩⟩ (1 / 100000)
            (1 / 100000000) Coords.lat false
      ∧ bring_into_cell_list
          (bring_into_cell_list [⟨1, 0, 0⟩] ⟨⟨2, 0, 0⟩, ⟨0, 1, 0⟩, ⟨0, 0, 1⟩⟩ (1 / 100000)
            (1 / 100000000) Coords.cart false)
          ⟨⟨2, 0, 0⟩, ⟨0, 1, 0⟩, ⟨0, 0, 1⟩⟩ (1 / 100000) (1 / 100000000) Coords.cart false
        = bring_into_cell_list [⟨1, 0, 0⟩] ⟨⟨2, 0, 0⟩, ⟨0, 1, 0⟩, ⟨0, 0, 1⟩⟩ (1 / 100000)
            (1 / 100000000) Coords.cart false) :=
  ⟨⟨by decide, by decide, by decide, by decide⟩,
    bring_into_cell_idempotent ⟨⟨2, 0, 0⟩, ⟨0, 1, 0⟩, ⟨0, 0, 1⟩⟩ (1 / 100000)
      (1 / 100000000) ⟨1, 0, 0⟩ [⟨1, 0, 0⟩] (by decide) (by decide) (by decide) (by decide)⟩

theorem isclose_iff (a b r t : ℚ) : isclose a b r t = true ↔ |a - b| ≤ t + r * |b| := by
  unfold isclose
  exact decide_eq_true_iff

theorem sort3_two_smallest (a b c : ℚ) :
    (sort3 a b c).1 + (sort3 a b c).2.1 = a + b + c - max3 a b c := by
  unfold sort3 max3
  split_ifs with h1 h2 h3 h4 h5 <;> dsimp only
  · rw [max_eq_right h2, max_eq_right (h1.trans h2)]; ring
  · rw [max_eq_left (le_of_not_le h2), max_eq_right h1]; ring
  · rw [max_eq_left (le_of_not_le h2), max_eq_right h1]; ring
  · rw [max_eq_right ((le_of_not_le h1).trans h4), max_eq_right h4]; ring
  · rw [max_eq_right h5, max_eq_left (le_of_not_le h4)]; ring
  · rw [max_eq_left (le_of_not_le h5), max_eq_left (le_of_not_le h1)]; ring

/-- C6, counterexample: the angle triple `(1, 1, 2 - 10⁻⁹)` has its two
smallest angles summing to `2`, strictly more than the largest angle, and is
nowhere near `2π/3`, yet `make_ptvecs` raises its linear-dependence error
because the sum is within `np.isclose` tolerance of the largest angle.  This
refutes the claim that no error is raised for such triples. -/
theorem make_ptvecs_guard_counterexample :
    make_ptvecs_angle_guard ⟨1, 1, 2 - 1 / 1000000000⟩ = true
      ∧ ¬((1 : ℚ) + 1 ≤ 2 - 1 / 1000000000)
      ∧ (1 : ℚ) ≠ 2 * ratPi / 3 := by
  refine ⟨by decide, by decide, by decide⟩

/-- C6, amended: `make_ptvecs` raises its linear-dependence error exactly when
the sum of the two smallest angles is at most the largest angle plus the
`np.isclose` tolerance, or all three angles are pairwise within tolerance and
within tolerance of `2π/3`; in particular triples with the sum strictly
exceeding the largest angle but within tolerance of it also raise. -/
theorem make_ptvecs_guard_iff (α β γ : ℚ) :
    make_ptvecs_angle_guard ⟨α, β, γ⟩ = true ↔
      (α + β + γ - 2 * max3 α β γ ≤ 1 / 100000000 + (1 / 100000) * |max3 α β γ|)
      ∨ (|α - β| ≤ 1 / 100000000 + (1 / 100000) * |β|
          ∧ |β - γ| ≤ 1 / 100000000 + (1 / 100000) * |γ|
          ∧ |β - 2 * ratPi / 3| ≤ 1 / 100000000 + (1 / 100000) * |2 * ratPi / 3|) := by
  unfold make_ptvecs_angle_guard
  simp only [Bool.or_eq_true, Bool.and_eq_true, decide_eq_true_iff, isclose_iff]
  rw [sort3_two_smallest]
  have habs : (0 : ℚ) ≤ 1 / 100000000 + (1 / 100000) * |max3 α β γ| := by positivity
  constructor
  · rintro ((h | h) | ⟨⟨h1, h2⟩, h3⟩)
    · left
      linarith
    · left
      rcases abs_le.mp h with ⟨hl, hr⟩
      linarith
    · exact Or.inr ⟨h1, h2, h3⟩
  · rintro (h | ⟨h1, h2, h3⟩)
    · by_cases hlt : α + β + γ - max3 α β γ < max3 α β γ
      · exact Or.inl (Or.inl hlt)
      · push_neg at hlt
        refine Or.inl (Or.inr ?_)
        rw [abs_le]
        constructor <;> linarith
    · exact Or.inr ⟨⟨h1, h2⟩, h3⟩

theorem roundHalfEven_int (k : ℤ) : roundHalfEven (k : ℚ) = k := by
  unfold roundHalfEven
  rw [Int.floor_intCast]
  norm_num

theorem roundDecimals_int (k : ℤ) (d : ℕ) : roundDecimals (k : ℚ) d = (k : ℚ) := by
  unfold roundDecimals
  have h1 : (k : ℚ) * (10 : ℚ) ^ d = ((k * 10 ^ d : ℤ) : ℚ) := by push_cast; ring
  rw [h1, roundHalfEven_int]
  have h2 : ((10 : ℚ) ^ d) ≠ 0 := by positivity
  push_cast
  rw [mul_div_assoc, div_self h2, mul_one]

theorem truncQ_int (k : ℤ) : truncQ (k : ℚ) = k := by
  unfold truncQ
  split_ifs <;> simp

theorem toRat_sub (a b : Vec3 ℤ) : (a - b).toRat = a.toRat - b.toRat := by
  rcases a with ⟨ax, ay, az⟩; rcases b with ⟨bx, by_, bz⟩
  simp only [Vec3.toRat, Vec3.sub_def, Vec3.ext_iff]
  refine ⟨by push_cast; ring, by push_cast; ring, by push_cast; ring⟩

theorem mulVec_toRat (M : Mat3 ℤ) (v : Vec3 ℤ) :
    (M.mulVec v).toRat = M.toRat.mulVec v.toRat := by
  rcases M with ⟨⟨a, b, c⟩, ⟨d, e, f⟩, ⟨g, h, i⟩⟩
  rcases v with ⟨vx, vy, vz⟩
  simp only [Vec3.toRat, Mat3.toRat, Mat3.mulVec, Vec3.smul_def, Vec3.add_def, Vec3.ext_iff]
  refine ⟨by push_cast; ring, by push_cast; ring, by push_cast; ring⟩

theorem mulVec_sub {α : Type} [CommRing α] (M : Mat3 α) (a b : Vec3 α) :
    M.mulVec (a - b) = M.mulVec a - M.mulVec b := by
  rcases M with ⟨⟨m0, m1, m2⟩, ⟨m3, m4, m5⟩, ⟨m6, m7, m8⟩⟩
  rcases a with ⟨ax, ay, az⟩; rcases b with ⟨bx, by_, bz⟩
  simp only [Mat3.mulVec, Vec3.smul_def, Vec3.add_def, Vec3.sub_def, Vec3.ext_iff]
  refine ⟨by ring, by ring, by ring⟩

theorem mat_mul_assoc {α : Type} [CommRing α] (A B C : Mat3 α) :
    A * B * C = A * (B * C) := by
  rcases A with ⟨⟨a, b, c⟩, ⟨d, e, f⟩, ⟨g, h, i⟩⟩
  rcases B with ⟨⟨a', b', c'⟩, ⟨d', e', f'⟩, ⟨g', h', i'⟩⟩
  rcases C with ⟨⟨a2, b2, c2⟩, ⟨d2, e2, f2⟩, ⟨g2, h2, i2⟩⟩
  simp only [Mat3.mul_def, Mat3.mulVec, Vec3.smul_def, Vec3.add_def, Mat3.meq_iff, Vec3.ext_iff]
  refine ⟨⟨by ring, by ring, by ring⟩, ⟨by ring, by ring, by ring⟩, by ring, by ring, by ring⟩

theorem mat_one_mul {α : Type} [CommRing α] (M : Mat3 α) : (1 : Mat3 α) * M = M := by
  rcases M with ⟨⟨a, b, c⟩, ⟨d, e, f⟩, ⟨g, h, i⟩⟩
  simp only [Mat3.one_def, Mat3.mul_def, Mat3.mulVec, Vec3.smul_def, Vec3.add_def,
    Mat3.meq_iff, Vec3.ext_iff]
  refine ⟨⟨by ring, by ring, by ring⟩, ⟨by ring, by ring, by ring⟩, by ring, by ring, by ring⟩

/-- A unimodular integer matrix has an integer two-sided inverse
`det L • adjugate L`. -/
theorem unimod_left_inv (L : Mat3 ℤ) (h : L.det = 1 ∨ L.det = -1) :
    Mat3.smulM L.det L.adjugate * L = 1 := by
  rw [Mat3.smulM_mul, Mat3.adjugate_mul, Mat3.smulM_smulM]
  have hdd : L.det * L.det = 1 := by rcases h with h | h <;> rw [h] <;> norm_num
  rw [hdd, Mat3.smulM_one_eq]

theorem euclid_unique {B a b r s : ℤ} (hB : 0 < B) (hr0 : 0 ≤ r) (hrB : r < B)
    (hs0 : 0 ≤ s) (hsB : s < B) (h : a * B + r = b * B + s) : a = b ∧ r = s := by
  have hab : a = b := by
    by_contra hne
    rcases lt_or_gt_of_ne hne with hlt | hgt
    · have h1 : a + 1 ≤ b := hlt
      have h2 : (a + 1) * B ≤ b * B := mul_le_mul_of_nonneg_right h1 hB.le
      nlinarith
    · have h1 : b + 1 ≤ a := hgt
      have h2 : (b + 1) * B ≤ a * B := mul_le_mul_of_nonneg_right h1 hB.le
      nlinarith
  exact ⟨hab, by rw [hab] at h; linarith⟩

theorem hashZ_range (L : Mat3 ℤ) (D : Vec3 ℤ) (g : Vec3 ℤ)
    (hx : 0 < D.x) (hy : 0 < D.y) (hz : 0 < D.z) :
    0 ≤ hashZ L D g ∧ hashZ L D g < D.x * D.y * D.z := by
  unfold hashZ emod3
  dsimp only
  have mx0 : 0 ≤ (L.mulVec g).x % D.x := Int.emod_nonneg _ hx.ne'
  have my0 : 0 ≤ (L.mulVec g).y % D.y := Int.emod_nonneg _ hy.ne'
  have mz0 : 0 ≤ (L.mulVec g).z % D.z := Int.emod_nonneg _ hz.ne'
  have mxB : (L.mulVec g).x % D.x < D.x := Int.emod_lt_of_pos _ hx
  have myB : (L.mulVec g).y % D.y < D.y := Int.emod_lt_of_pos _ hy
  have mzB : (L.mulVec g).z % D.z < D.z := Int.emod_lt_of_pos _ hz
  set mx := (L.mulVec g).x % D.x
  set my := (L.mulVec g).y % D.y
  set mz := (L.mulVec g).z % D.z
  constructor
  · have t1 : 0 ≤ mx * D.y * D.z := by positivity
    have t2 : 0 ≤ my * D.z := by positivity
    linarith
  · have b1 : mx * D.y * D.z ≤ (D.x - 1) * D.y * D.z := by
      apply mul_le_mul_of_nonneg_right _ hz.le
      apply mul_le_mul_of_nonneg_right _ hy.le
      omega
    have b2 : my * D.z ≤ (D.y - 1) * D.z := by
      apply mul_le_mul_of_nonneg_right _ hz.le
      omega
    have e1 : (D.x - 1) * D.y * D.z = D.x * D.y * D.z - D.y * D.z := by ring
    have e2 : (D.y - 1) * D.z = D.y * D.z - D.z := by ring
    linarith

theorem hashZ_inj (L : Mat3 ℤ) (D : Vec3 ℤ) (g1 g2 : Vec3 ℤ)
    (hx : 0 < D.x) (hy : 0 < D.y) (hz : 0 < D.z)
    (h : hashZ L D g1 = hashZ L D g2) :
    emod3 (L.mulVec g1) D = emod3 (L.mulVec g2) D := by
  unfold hashZ at h
  dsimp only at h
  set m := emod3 (L.mulVec g1) D with hm
  set n := emod3 (L.mulVec g2) D with hn
  have mx0 : 0 ≤ m.x := Int.emod_nonneg _ hx.ne'
  have my0 : 0 ≤ m.y := Int.emod_nonneg _ hy.ne'
  have mz0 : 0 ≤ m.z := Int.emod_nonneg _ hz.ne'
  have mxB : m.x < D.x := Int.emod_lt_of_pos _ hx
  have myB : m.y < D.y := Int.emod_lt_of_pos _ hy
  have mzB : m.z < D.z := Int.emod_lt_of_pos _ hz
  have nx0 : 0 ≤ n.x := Int.emod_nonneg _ hx.ne'
  have ny0 : 0 ≤ n.y := Int.emod_nonneg _ hy.ne'
  have nz0 : 0 ≤ n.z := Int.emod_nonneg _ hz.ne'
  have nxB : n.x < D.x := Int.emod_lt_of_pos _ hx
  have nyB : n.y < D.y := Int.emod_lt_of_pos _ hy
  have nzB : n.z < D.z := Int.emod_lt_of_pos _ hz
  have hyz : 0 < D.y * D.z := mul_pos hy hz
  have h' : m.x * (D.y * D.z) + (m.y * D.z + m.z)
      = n.x * (D.y * D.z) + (n.y * D.z + n.z) := by
    have lhs : m.x * D.y * D.z + m.y * D.z + m.z
        = m.x * (D.y * D.z) + (m.y * D.z + m.z) := by ring
    have rhs : n.x * D.y * D.z + n.y * D.z + n.z
        = n.x * (D.y * D.z) + (n.y * D.z + n.z) := by ring
    rw [← lhs, ← rhs]
    exact h
  have hr0 : 0 ≤ m.y * D.z + m.z := by positivity
  have hrB : m.y * D.z + m.z < D.y * D.z := by nlinarith
  have hs0 : 0 ≤ n.y * D.z + n.z := by positivity
  have hsB : n.y * D.z + n.z < D.y * D.z := by nlinarith
  obtain ⟨hxeq, hrest⟩ := euclid_unique hyz hr0 hrB hs0 hsB h'
  obtain ⟨hyeq, hzeq⟩ := euclid_unique hz mz0 mzB nz0 nzB hrest
  rw [Vec3.ext_iff]
  exact ⟨hxeq, hyeq, hzeq⟩

theorem vec_sub_sub (p1 p2 s : Vec3 ℚ) : (p1 - s) - (p2 - s) = p1 - p2 := by
  rcases p1 with ⟨a, b, c⟩; rcases p2 with ⟨d, e, f⟩; rcases s with ⟨g, h, i⟩
  simp only [Vec3.sub_def, Vec3.ext_iff]
  refine ⟨by ring, by ring, by ring⟩

/-- C2: `find_kpt_index` computes the mixed-radix hash
`((L · round(invK·(p − shift))) mod D) · (D[1]·D[2], D[2], 1)`; under the
commensurability setup (`rlat = K·N` with `N` integer, `H = N·B` the HNF, and
`L·H·R = diag D` the SNF with `L` unimodular and positive diagonal `D`), every
grid point maps to an integer in `[0, D[0]·D[1]·D[2])`, and two grid points
receive the same index only when their difference is a reciprocal-lattice
vector. -/
theorem find_kpt_index_spec
    (K invK rlat : Mat3 ℚ) (N B H L R : Mat3 ℤ) (D : Vec3 ℤ)
    (s p1 p2 : Vec3 ℚ) (g1 g2 : Vec3 ℤ) (decims : ℕ)
    (hKinv : K * invK = 1)
    (hrlat : rlat = K * N.toRat)
    (hH : H = N * B)
    (hLHR : L * H * R = diagM D) (hdetL : L.det = 1 ∨ L.det = -1)
    (hD : 0 < D.x ∧ 0 < D.y ∧ 0 < D.z)
    (hg1 : invK.mulVec (p1 - s) = g1.toRat)
    (hg2 : invK.mulVec (p2 - s) = g2.toRat) :
    find_kpt_index (p1 - s) invK L D decims = hashZ L D g1
    ∧ 0 ≤ hashZ L D g1 ∧ hashZ L D g1 < D.x * D.y * D.z
    ∧ (hashZ L D g1 = hashZ L D g2 →
        ∃ z : Vec3 ℤ, p1 - p2 = rlat.mulVec z.toRat) := by
  obtain ⟨hDx, hDy, hDz⟩ := hD
  have heval : find_kpt_index (p1 - s) invK L D decims = hashZ L D g1 := by
    unfold find_kpt_index hashZ
    dsimp only
    rw [hg1]
    have hround : (Vec3.toRat g1).map (fun q => roundDecimals q decims) = g1.toRat := by
      rcases g1 with ⟨gx, gy, gz⟩
      simp only [Vec3.toRat, Vec3.map, Vec3.ext_iff]
      exact ⟨roundDecimals_int _ _, roundDecimals_int _ _, roundDecimals_int _ _⟩
    rw [hround, ← mulVec_toRat]
    have htrunc : truncV ((L.mulVec g1).toRat) = L.mulVec g1 := by
      rcases L.mulVec g1 with ⟨wx, wy, wz⟩
      simp only [Vec3.toRat, truncV, Vec3.ext_iff]
      exact ⟨truncQ_int _, truncQ_int _, truncQ_int _⟩
    rw [htrunc]
  refine ⟨heval, (hashZ_range L D g1 hDx hDy hDz).1, (hashZ_range L D g1 hDx hDy hDz).2, ?_⟩
  intro hcol
  have hmods := hashZ_inj L D g1 g2 hDx hDy hDz hcol
  -- Componentwise divisibility of the difference by the SNF diagonal.
  have hdvdx : D.x ∣ ((L.mulVec g1).x - (L.mulVec g2).x) := by
    apply Int.dvd_of_emod_eq_zero
    rw [Int.sub_emod]
    have : (L.mulVec g1).x % D.x = (L.mulVec g2).x % D.x := congrArg Vec3.x hmods
    rw [this, sub_self, Int.zero_emod]
  have hdvdy : D.y ∣ ((L.mulVec g1).y - (L.mulVec g2).y) := by
    apply Int.dvd_of_emod_eq_zero
    rw [Int.sub_emod]
    have : (L.mulVec g1).y % D.y = (L.mulVec g2).y % D.y := congrArg Vec3.y hmods
    rw [this, sub_self, Int.zero_emod]
  have hdvdz : D.z ∣ ((L.mulVec g1).z - (L.mulVec g2).z) := by
    apply Int.dvd_of_emod_eq_zero
    rw [Int.sub_emod]
    have : (L.mulVec g1).z % D.z = (L.mulVec g2).z % D.z := congrArg Vec3.z hmods
    rw [this, sub_self, Int.zero_emod]
  obtain ⟨kx, hkx⟩ := hdvdx
  obtain ⟨ky, hky⟩ := hdvdy
  obtain ⟨kz, hkz⟩ := hdvdz
  set k : Vec3 ℤ := ⟨kx, ky, kz⟩ with hk
  have hLw : L.mulVec (g1 - g2) = (diagM D).mulVec k := by
    rw [mulVec_sub, Vec3.ext_iff]
    refine ⟨?_, ?_, ?_⟩
    · show (L.mulVec g1).x - (L.mulVec g2).x = kx * D.x + ky * 0 + kz * 0
      rw [hkx]; ring
    · show (L.mulVec g1).y - (L.mulVec g2).y = kx * 0 + ky * D.y + kz * 0
      rw [hky]; ring
    · show (L.mulVec g1).z - (L.mulVec g2).z = kx * 0 + ky * 0 + kz * D.z
      rw [hkz]; ring
  -- Invert the unimodular L over the integers.
  have hinvL := unimod_left_inv L hdetL
  have hgdiff : g1 - g2 = (H * R).mulVec k := by
    have h1 : g1 - g2 = (Mat3.smulM L.det L.adjugate).mulVec (L.mulVec (g1 - g2)) := by
      rw [mulVec_mulVec, hinvL, one_mulVec]
    rw [h1, hLw, mulVec_mulVec, ← hLHR]
    have hassoc : Mat3.smulM L.det L.adjugate * (L * H * R)
        = (Mat3.smulM L.det L.adjugate * L) * H * R := by
      rw [← mat_mul_assoc (Mat3.smulM L.det L.adjugate) (L * H) R,
        ← mat_mul_assoc (Mat3.smulM L.det L.adjugate) L H]
    rw [hassoc, hinvL, mat_one_mul]
  have hNform : g1 - g2 = N.mulVec (B.mulVec (R.mulVec k)) := by
    rw [hgdiff, hH, ← mulVec_mulVec, ← mulVec_mulVec]
  -- Back to Cartesian space.
  have hp1 : p1 - s = K.mulVec g1.toRat := by
    have := congrArg (fun v => K.mulVec v) hg1
    simpa only [mulVec_mulVec, hKinv, one_mulVec] using this
  have hp2 : p2 - s = K.mulVec g2.toRat := by
    have := congrArg (fun v => K.mulVec v) hg2
    simpa only [mulVec_mulVec, hKinv, one_mulVec] using this
  refine ⟨B.mulVec (R.mulVec k), ?_⟩
  have hdiff : p1 - p2 = K.mulVec (g1.toRat - g2.toRat) := by
    rw [← vec_sub_sub p1 p2 s, hp1, hp2, mulVec_sub]
  rw [hdiff, ← toRat_sub, hNform, mulVec_toRat, mulVec_mulVec, hrlat]

/-- Witness for `find_kpt_index_spec`: the 2×2×2 grid `K = I/2` inside the
unit reciprocal lattice, with `N = H = diag(2,2,2)`, `L = R = B = I`, at the
colliding grid points `(1/2,0,0)` and `(1/2,1,0)`. -/
theorem find_kpt_index_spec_witness :
    ((⟨⟨1/2, 0, 0⟩, ⟨0, 1/2, 0⟩, ⟨0, 0, 1/2⟩⟩ : Mat3 ℚ) * ⟨⟨2, 0, 0⟩, ⟨0, 2, 0⟩, ⟨0, 0, 2⟩⟩ = 1)
    ∧ (find_kpt_index (⟨1/2, 0, 0⟩ - ⟨0, 0, 0⟩) ⟨⟨2, 0, 0⟩, ⟨0, 2, 0⟩, ⟨0, 0, 2⟩⟩ 1 ⟨2, 2, 2⟩ 4
          = hashZ 1 ⟨2, 2, 2⟩ ⟨1, 0, 0⟩
        ∧ 0 ≤ hashZ 1 ⟨2, 2, 2⟩ ⟨1, 0, 0⟩
        ∧ hashZ 1 ⟨2, 2, 2⟩ ⟨1, 0, 0⟩ < (⟨2, 2, 2⟩ : Vec3 ℤ).x * (⟨2, 2, 2⟩ : Vec3 ℤ).y * (⟨2, 2, 2⟩ : Vec3 ℤ).z
        ∧ (hashZ 1 ⟨2, 2, 2⟩ ⟨1, 0, 0⟩ = hashZ 1 ⟨2, 2, 2⟩ ⟨1, 2, 0⟩ →
            ∃ z : Vec3 ℤ, (⟨1/2, 0, 0⟩ : Vec3 ℚ) - ⟨1/2, 1, 0⟩
              = (⟨⟨1, 0, 0⟩, ⟨0, 1, 0⟩, ⟨0, 0, 1⟩⟩ : Mat3 ℚ).mulVec z.toRat)) :=
  ⟨by decide,
    find_kpt_index_spec
      ⟨⟨1/2, 0, 0⟩, ⟨0, 1/2, 0⟩, ⟨0, 0, 1/2⟩⟩ ⟨⟨2, 0, 0⟩, ⟨0, 2, 0⟩, ⟨0, 0, 2⟩⟩
      ⟨⟨1, 0, 0⟩, ⟨0, 1, 0⟩, ⟨0, 0, 1⟩⟩ ⟨⟨2, 0, 0⟩, ⟨0, 2, 0⟩, ⟨0, 0, 2⟩⟩ 1
      ⟨⟨2, 0, 0⟩, ⟨0, 2, 0⟩, ⟨0, 0, 2⟩⟩ 1 1 ⟨2, 2, 2⟩
      ⟨0, 0, 0⟩ ⟨1/2, 0, 0⟩ ⟨1/2, 1, 0⟩ ⟨1, 0, 0⟩ ⟨1, 2, 0⟩ 4
      (by decide) (by decide) (by decide) (by decide) (by decide) (by decide)
      (by decide) (by decide)⟩

theorem sortPair_sorted (a b : Vec3 ℚ) :
    Vec3.nsq (sortPair a b).1 ≤ Vec3.nsq (sortPair a b).2 := by
  unfold sortPair
  split_ifs with h
  · exact le_of_lt h
  · exact le_of_not_lt h

theorem gaussian_reduction_go_spec (ε : ℚ) (fuel : ℕ) :
    ∀ a b : Vec3 ℚ,
      gaussian_reduction_go ε fuel a b = Except.error PyErr.convergence
      ∨ ∃ w1 w2, gaussian_reduction_go ε fuel a b = Except.ok (w1, w2)
          ∧ Vec3.nsq w1 ≤ Vec3.nsq w2 := by
  induction fuel with
  | zero => intro a b; exact Or.inl rfl
  | succ n ih =>
    intro a b
    unfold gaussian_reduction_go
    dsimp only
    split_ifs with h
    · right
      refine ⟨_, _, rfl, ?_⟩
      · exact sortPair_sorted a _
    · exact ih _ _

/-- C7: `gaussian_reduction` always terminates: its loop is bounded by the
iteration counter (10 in the source, the fuel in the embedding), and either
raises the non-convergence error or returns normally; on a normal return the
pair is norm-sorted, `‖v1'‖ ≤ ‖v2'‖` (stated with squared norms, which is
equivalent). -/
theorem gaussian_reduction_terminates (v1 v2 : Vec3 ℚ) (ε : ℚ) :
    gaussian_reduction v1 v2 ε = Except.error PyErr.convergence
    ∨ ∃ w1 w2, gaussian_reduction v1 v2 ε = Except.ok (w1, w2)
        ∧ Vec3.nsq w1 ≤ Vec3.nsq w2 := by
  unfold gaussian_reduction
  exact gaussian_reduction_go_spec ε 10 _ _

theorem det_swapC12 (M : Mat3 ℚ) : (swapC12 M).det = -M.det := by
  rcases M with ⟨⟨a, b, c⟩, ⟨d, e, f⟩, ⟨g, h, i⟩⟩
  simp only [swapC12, Mat3.det]
  ring

/-- C8, counterexample: the already-reduced basis with columns
`(1,0,0), (0,2,0), (0,0,-3)` has negative determinant; the final
determinant-normalization swap exchanges the last two columns, so the
returned basis has its second column longer than its third — the returned
basis is not in ascending norm order, refuting the claim that every normally
returned basis satisfies the full ReducedBasis invariant including ascending
order. -/
theorem minkowski_reduce_basis_counterexample :
    minkowski_reduce_basis ⟨⟨1, 0, 0⟩, ⟨0, 2, 0⟩, ⟨0, 0, -3⟩⟩ (1 / 10000) (1 / 1000000)
        (1 / 10000000000)
      = Except.ok ⟨⟨1, 0, 0⟩, ⟨0, 0, -3⟩, ⟨0, 2, 0⟩⟩
    ∧ Vec3.nsq ((⟨0, 2, 0⟩ : Vec3 ℚ)) < Vec3.nsq ((⟨0, 0, -3⟩ : Vec3 ℚ)) := by
  constructor
  · decide
  · decide

/-- C8, amended: every basis returned normally by `minkowski_reduce_basis`
is obtained from a loop result that passed the twelve toleranced Minkowski
inequality checks by sorting its columns in ascending norm order and then
swapping the last two columns when the sorted determinant is below `-eps`
(a swap that can break the ascending order); the returned determinant
satisfies `det + eps ≥ 0`, and a basis failing the inequality check within
the iteration bound yields a reported error, never a normal return. -/
theorem minkowski_reduce_basis_postcondition (M Mout : Mat3 ℚ) (rtol atol ε : ℚ)
    (hε : 0 ≤ ε)
    (h : minkowski_reduce_basis M rtol atol ε = Except.ok Mout) :
    ∃ M', minkowski_loop rtol atol ε 10 M = Except.ok M'
      ∧ check_minkowski_conditions M' ε = true
      ∧ Mout = (if (sortCols M').det + ε < 0 then swapC12 (sortCols M') else sortCols M')
      ∧ 0 ≤ Mout.det + ε := by
  unfold minkowski_reduce_basis at h
  by_cases hsing : isclose M.det 0 rtol atol
  · rw [if_pos hsing] at h
    exact absurd h (by simp)
  · rw [if_neg hsing] at h
    rcases hloop : minkowski_loop rtol atol ε 10 M with e | M'
    · rw [hloop] at h
      simp at h
    · rw [hloop] at h
      dsimp only at h
      by_cases hchk : check_minkowski_conditions M' ε = true
      · rw [if_neg (by simp [hchk])] at h
        injection h with hout
        refine ⟨M', rfl, hchk, hout.symm, ?_⟩
        rw [← hout]
        by_cases hdetneg : (sortCols M').det + ε < 0
        · rw [if_pos hdetneg, det_swapC12]
          linarith
        · rw [if_neg hdetneg]
          linarith
      · rw [if_pos (by simp [hchk])] at h
        exact absurd h (by simp)

/-- Witness for `minkowski_reduce_basis_postcondition` at the concrete basis
of the counterexample run. -/
theorem minkowski_reduce_basis_postcondition_witness :
    minkowski_reduce_basis ⟨⟨1, 0, 0⟩, ⟨0, 2, 0⟩, ⟨0, 0, -3⟩⟩ (1 / 10000) (1 / 1000000)
        (1 / 10000000000)
      = Except.ok ⟨⟨1, 0, 0⟩, ⟨0, 0, -3⟩, ⟨0, 2, 0⟩⟩
    ∧ ∃ M', minkowski_loop (1 / 10000) (1 / 1000000) (1 / 10000000000) 10
          ⟨⟨1, 0, 0⟩, ⟨0, 2, 0⟩, ⟨0, 0, -3⟩⟩ = Except.ok M'
        ∧ check_minkowski_conditions M' (1 / 10000000000) = true
        ∧ (⟨⟨1, 0, 0⟩, ⟨0, 0, -3⟩, ⟨0, 2, 0⟩⟩ : Mat3 ℚ)
            = (if (sortCols M').det + (1 / 10000000000 : ℚ) < 0 then swapC12 (sortCols M')
                else sortCols M')
        ∧ 0 ≤ (⟨⟨1, 0, 0⟩, ⟨0, 0, -3⟩, ⟨0, 2, 0⟩⟩ : Mat3 ℚ).det + (1 / 10000000000 : ℚ) :=
  ⟨by decide,
    minkowski_reduce_basis_postcondition ⟨⟨1, 0, 0⟩, ⟨0, 2, 0⟩, ⟨0, 0, -3⟩⟩
      ⟨⟨1, 0, 0⟩, ⟨0, 0, -3⟩, ⟨0, 2, 0⟩⟩ (1 / 10000) (1 / 1000000) (1 / 10000000000)
      (by decide) (by decide)⟩

theorem mulVec_sub_smul (S : Mat3 ℤ) (a b : Vec3 ℤ) (m : ℤ) :
    S.mulVec (a - m • b) = S.mulVec a - m • S.mulVec b := by
  rcases S with ⟨⟨s0, s1, s2⟩, ⟨s3, s4, s5⟩, ⟨s6, s7, s8⟩⟩
  rcases a with ⟨ax, ay, az⟩; rcases b with ⟨bx, by_, bz⟩
  simp only [Mat3.mulVec, Vec3.smul_def, Vec3.sub_def, Vec3.add_def, Vec3.ext_iff]
  refine ⟨by ring, by ring, by ring⟩

theorem mulVec_neg (S : Mat3 ℤ) (a : Vec3 ℤ) : S.mulVec (-a) = -(S.mulVec a) := by
  rcases S with ⟨⟨s0, s1, s2⟩, ⟨s3, s4, s5⟩, ⟨s6, s7, s8⟩⟩
  rcases a with ⟨ax, ay, az⟩
  simp only [Mat3.mulVec, Vec3.smul_def, Vec3.neg_def, Vec3.add_def, Vec3.ext_iff]
  refine ⟨by ring, by ring, by ring⟩

theorem mul_colSubMul (S B : Mat3 ℤ) (d s : ℕ) (m : ℤ) :
    S * colSubMul B d s m = colSubMul (S * B) d s m := by
  rcases d with _ | _ | d <;> rcases s with _ | _ | s <;>
    simp only [colSubMul, setCol, getCol, Mat3.mul_def] <;>
    rw [mulVec_sub_smul]

theorem mul_negCol (S B : Mat3 ℤ) (i : ℕ) :
    S * negCol B i = negCol (S * B) i := by
  rcases i with _ | _ | i <;>
    simp only [negCol, setCol, getCol, Mat3.mul_def] <;>
    rw [mulVec_neg]

theorem mul_swapCols12 (S B : Mat3 ℤ) :
    S * swapColsInt B 1 2 = swapColsInt (S * B) 1 2 := rfl

theorem det_colSubMul_distinct (M : Mat3 ℤ) (d s : ℕ) (m : ℤ)
    (hd : d < 3) (hs : s < 3) (hne : d ≠ s) :
    (colSubMul M d s m).det = M.det := by
  rcases M with ⟨⟨a, b, c⟩, ⟨e, f, g⟩, ⟨h, i, j⟩⟩
  interval_cases d <;> interval_cases s <;>
    first
      | exact absurd rfl hne
      | (simp only [colSubMul, setCol, getCol, Mat3.det, Vec3.smul_def, Vec3.sub_def]; ring)

theorem det_negCol (M : Mat3 ℤ) (i : ℕ) (hi : i < 3) :
    (negCol M i).det = -M.det := by
  rcases M with ⟨⟨a, b, c⟩, ⟨e, f, g⟩, ⟨h, i', j⟩⟩
  interval_cases i <;>
    (simp only [negCol, setCol, getCol, Mat3.det, Vec3.neg_def]; ring)

theorem det_swapCols12 (M : Mat3 ℤ) : (swapColsInt M 1 2).det = -M.det := by
  rcases M with ⟨⟨a, b, c⟩, ⟨e, f, g⟩, ⟨h, i, j⟩⟩
  simp only [swapColsInt, setCol, getCol, Mat3.det]
  ring

theorem natAbs_tmod (a b : ℤ) : (Int.tmod a b).natAbs = a.natAbs % b.natAbs := by
  rcases a with m | m <;> rcases b with n | n <;>
    simp only [Int.tmod, Int.natAbs_neg] <;> rfl

theorem natAbs_tmod_lt (a b : ℤ) (hb : b ≠ 0) :
    (Int.tmod a b).natAbs < b.natAbs := by
  rw [natAbs_tmod]
  exact Nat.mod_lt _ (Int.natAbs_pos.mpr hb)

theorem tmod_as_sub (a b : ℤ) : a - Int.tdiv a b * b = Int.tmod a b := by
  have := Int.tmod_def a b
  linarith [this, mul_comm b (Int.tdiv a b)]

theorem get_minmax_spec (a : Vec3 ℤ) (h2 : 2 ≤ countNonzero a) :
    (get_minmax_indices a).1 < 3 ∧ (get_minmax_indices a).2 < 3
    ∧ (get_minmax_indices a).1 ≠ (get_minmax_indices a).2
    ∧ entry3 a (get_minmax_indices a).1 ≠ 0
    ∧ (entry3 a (get_minmax_indices a).1).natAbs ≤ (entry3 a (get_minmax_indices a).2).natAbs := by
  rcases a with ⟨x, y, z⟩
  unfold countNonzero at h2
  unfold get_minmax_indices entry3
  dsimp only at h2 ⊢
  split_ifs at h2 ⊢ <;> dsimp only <;> omega

/-- Write entry `i` of a 3-vector. -/
def updEntry (v : Vec3 ℤ) (i : ℕ) (x : ℤ) : Vec3 ℤ :=
  match i with
  | 0 => ⟨x, v.y, v.z⟩
  | 1 => ⟨v.x, x, v.z⟩
  | _ => ⟨v.x, v.y, x⟩

theorem row0_colSubMul (M : Mat3 ℤ) (d s : ℕ) (m : ℤ) (hd : d < 3) (hs : s < 3) :
    (colSubMul M d s m).row0
      = updEntry M.row0 d (entry3 M.row0 d - m * entry3 M.row0 s) := by
  interval_cases d <;> interval_cases s <;> rfl

theorem rowAbsSum_updEntry (v : Vec3 ℤ) (i : ℕ) (x : ℤ) (hi : i < 3) :
    rowAbsSum (updEntry v i x) + (entry3 v i).natAbs = rowAbsSum v + x.natAbs := by
  interval_cases i <;> (simp only [updEntry, entry3, rowAbsSum]; omega)

theorem countNonzero_updEntry_le (v : Vec3 ℤ) (i : ℕ) (x : ℤ) (hi : i < 3) :
    countNonzero (updEntry v i x) ≤ countNonzero v + (if x = 0 then 0 else 1) := by
  interval_cases i <;> (simp only [updEntry, countNonzero]; split_ifs <;> omega)

theorem hnf_loop1_spec (S : Mat3 ℤ) : ∀ (fuel : ℕ) (H B : Mat3 ℤ),
    S * B = H → (B.det = 1 ∨ B.det = -1) → rowAbsSum H.row0 < fuel →
    ∃ H' B', hnf_loop1 S fuel H B = Except.ok (H', B')
      ∧ S * B' = H' ∧ (B'.det = 1 ∨ B'.det = -1) ∧ countNonzero H'.row0 ≤ 1 := by
  intro fuel
  induction fuel with
  | zero => intro H B _ _ hlt; omega
  | succ n ih =>
    intro H B hrel hdet hlt
    unfold hnf_loop1
    by_cases hcnt : countNonzero H.row0 ≤ 1
    · rw [if_pos hcnt]
      exact ⟨H, B, rfl, hrel, hdet, hcnt⟩
    · rw [if_neg hcnt]
      have h2 : 2 ≤ countNonzero H.row0 := by omega
      obtain ⟨hm1, hm2, hne, hnz, hle⟩ := get_minmax_spec H.row0 h2
      set p := get_minmax_indices H.row0 with hp
      set minm := entry3 H.row0 p.1 with hminm
      set mult := Int.tdiv (entry3 H.row0 p.2) minm with hmult
      set H' := colSubMul H p.2 p.1 mult with hH'
      set B' := colSubMul B p.2 p.1 mult with hB'
      have hrel' : S * B' = H' := by
        rw [hB', mul_colSubMul, hrel, hH']
      rw [if_neg (by simp [hrel'])]
      have hdet' : B'.det = 1 ∨ B'.det = -1 := by
        rw [hB', det_colSubMul_distinct B p.2 p.1 mult hm2 hm1 (Ne.symm hne)]
        exact hdet
      have hrow : H'.row0 = updEntry H.row0 p.2
          (entry3 H.row0 p.2 - mult * entry3 H.row0 p.1) := by
        rw [hH', row0_colSubMul H p.2 p.1 mult hm2 hm1]
      have hnewval : entry3 H.row0 p.2 - mult * entry3 H.row0 p.1
          = Int.tmod (entry3 H.row0 p.2) minm := by
        rw [hmult, hminm, tmod_as_sub]
      have hsum : rowAbsSum H'.row0 + (entry3 H.row0 p.2).natAbs
          = rowAbsSum H.row0 + (Int.tmod (entry3 H.row0 p.2) minm).natAbs := by
        rw [hrow, hnewval]
        exact rowAbsSum_updEntry H.row0 p.2 _ hm2
      have htm : (Int.tmod (entry3 H.row0 p.2) minm).natAbs < minm.natAbs :=
        natAbs_tmod_lt _ _ hnz
      have hdec : rowAbsSum H'.row0 < rowAbsSum H.row0 := by
        have := hle
        omega
      obtain ⟨H'', B'', hrun, hr2, hd2, hc2⟩ := ih H' B' hrel' hdet' (by omega)
      exact ⟨H'', B'', hrun, hr2, hd2, hc2⟩

theorem hnf_loop2_spec (S : Mat3 ℤ) : ∀ (fuel : ℕ) (H B : Mat3 ℤ),
    S * B = H → (B.det = 1 ∨ B.det = -1) → H.c1.x = 0 → H.c2.x = 0 →
    H.c1.y.natAbs + H.c2.y.natAbs < fuel →
    ∃ H' B', hnf_loop2 S fuel H B = Except.ok (H', B')
      ∧ S * B' = H' ∧ (B'.det = 1 ∨ B'.det = -1)
      ∧ H'.c2.y = 0 ∧ H'.c0 = H.c0 ∧ H'.c1.x = 0 ∧ H'.c2.x = 0 := by
  intro fuel
  induction fuel with
  | zero => intro H B _ _ _ _ hlt; omega
  | succ n ih =>
    intro H B hrel hdet h1x h2x hlt
    unfold hnf_loop2
    by_cases h22 : H.c2.y = 0
    · rw [if_pos h22]
      exact ⟨H, B, rfl, hrel, hdet, h22, rfl, h1x, h2x⟩
    · rw [if_neg h22]
      by_cases h11 : H.c1.y = 0
      · rw [if_pos h11]
        refine ⟨swapColsInt H 1 2, swapColsInt B 1 2, rfl, ?_, ?_, ?_, rfl, ?_, ?_⟩
        · rw [mul_swapCols12, hrel]
        · rw [det_swapCols12]
          rcases hdet with h | h <;> [right; left] <;> rw [h] <;> ring
        · exact h11
        · exact h2x
        · exact h1x
      · rw [if_neg h11]
        dsimp only
        by_cases hcmp : H.c2.y.natAbs < H.c1.y.natAbs
        · rw [if_pos hcmp]
          set mult := Int.tdiv (entry3 H.row1 1) (entry3 H.row1 2) with hmult
          have hrel' : S * colSubMul B 1 2 mult = colSubMul H 1 2 mult := by
            rw [mul_colSubMul, hrel]
          rw [if_neg (by simp [hrel'])]
          have hdet' : (colSubMul B 1 2 mult).det = 1 ∨ (colSubMul B 1 2 mult).det = -1 := by
            rw [det_colSubMul_distinct B 1 2 mult (by omega) (by omega) (by omega)]
            exact hdet
          have hH' : colSubMul H 1 2 mult = ⟨H.c0, H.c1 - mult • H.c2, H.c2⟩ := rfl
          have hval : (H.c1 - mult • H.c2).y = Int.tmod H.c1.y H.c2.y := by
            show H.c1.y - mult * H.c2.y = Int.tmod H.c1.y H.c2.y
            rw [hmult]
            show H.c1.y - Int.tdiv H.c1.y H.c2.y * H.c2.y = Int.tmod H.c1.y H.c2.y
            exact tmod_as_sub _ _
          have habs : (H.c1 - mult • H.c2).y.natAbs < H.c2.y.natAbs := by
            rw [hval]
            exact natAbs_tmod_lt _ _ h22
          have h1x' : (colSubMul H 1 2 mult).c1.x = 0 := by
            show H.c1.x - mult * H.c2.x = 0
            rw [h1x, h2x]; ring
          obtain ⟨H'', B'', hrun, hr2, hd2, hz2, hc0, hx1, hx2⟩ :=
            ih (colSubMul H 1 2 mult) (colSubMul B 1 2 mult) hrel' hdet' h1x' h2x
              (by
                show (H.c1 - mult • H.c2).y.natAbs + H.c2.y.natAbs < n
                omega)
          exact ⟨H'', B'', hrun, hr2, hd2, hz2, hc0, hx1, hx2⟩
        · rw [if_neg hcmp]
          set mult := Int.tdiv (entry3 H.row1 2) (entry3 H.row1 1) with hmult
          have hrel' : S * colSubMul B 2 1 mult = colSubMul H 2 1 mult := by
            rw [mul_colSubMul, hrel]
          rw [if_neg (by simp [hrel'])]
          have hdet' : (colSubMul B 2 1 mult).det = 1 ∨ (colSubMul B 2 1 mult).det = -1 := by
            rw [det_colSubMul_distinct B 2 1 mult (by omega) (by omega) (by omega)]
            exact hdet
          have hval : (H.c2 - mult • H.c1).y = Int.tmod H.c2.y H.c1.y := by
            show H.c2.y - mult * H.c1.y = Int.tmod H.c2.y H.c1.y
            rw [hmult]
            show H.c2.y - Int.tdiv H.c2.y H.c1.y * H.c1.y = Int.tmod H.c2.y H.c1.y
            exact tmod_as_sub _ _
          have habs : (H.c2 - mult • H.c1).y.natAbs < H.c1.y.natAbs := by
            rw [hval]
            exact natAbs_tmod_lt _ _ h11
          have h2x' : (colSubMul H 2 1 mult).c2.x = 0 := by
            show H.c2.x - mult * H.c1.x = 0
            rw [h1x, h2x]; ring
          obtain ⟨H'', B'', hrun, hr2, hd2, hz2, hc0, hx1, hx2⟩ :=
            ih (colSubMul H 2 1 mult) (colSubMul B 2 1 mult) hrel' hdet' h1x h2x'
              (by
                show H.c1.y.natAbs + (H.c2 - mult • H.c1).y.natAbs < n
                omega)
          exact ⟨H'', B'', hrun, hr2, hd2, hz2, hc0, hx1, hx2⟩

theorem hnf_loop3_spec (S : Mat3 ℤ) : ∀ (fuel : ℕ) (H B : Mat3 ℤ),
    S * B = H → (B.det = 1 ∨ B.det = -1) → 0 < H.c1.y → H.c1.x = 0 →
    H.c0.y.natAbs < fuel →
    ∃ H' B', hnf_loop3 fuel H B = Except.ok (H', B')
      ∧ S * B' = H' ∧ (B'.det = 1 ∨ B'.det = -1)
      ∧ 0 ≤ H'.c0.y ∧ H'.c0.y < H'.c1.y
      ∧ H'.c0.x = H.c0.x ∧ H'.c1 = H.c1 ∧ H'.c2 = H.c2 := by
  intro fuel
  induction fuel with
  | zero => intro H B _ _ _ _ hlt; omega
  | succ n ih =>
    intro H B hrel hdet hpos h1x hlt
    unfold hnf_loop3
    by_cases hcond : H.c1.y ≤ H.c0.y ∨ H.c0.y < 0
    · rw [if_pos hcond]
      dsimp only
      set mult : ℤ := if H.c1.y ≤ H.c0.y then 1 else -1 with hmult
      have hrel' : S * colSubMul B 0 1 mult = colSubMul H 0 1 mult := by
        rw [mul_colSubMul, hrel]
      have hdet' : (colSubMul B 0 1 mult).det = 1 ∨ (colSubMul B 0 1 mult).det = -1 := by
        rw [det_colSubMul_distinct B 0 1 mult (by omega) (by omega) (by omega)]
        exact hdet
      have hH' : colSubMul H 0 1 mult = ⟨H.c0 - mult • H.c1, H.c1, H.c2⟩ := rfl
      have hy' : (H.c0 - mult • H.c1).y = H.c0.y - mult * H.c1.y := rfl
      have hx' : (colSubMul H 0 1 mult).c0.x = H.c0.x := by
        show H.c0.x - mult * H.c1.x = H.c0.x
        rw [h1x]; ring
      by_cases hc : H.c1.y ≤ H.c0.y
      · have hm1 : mult = 1 := by rw [hmult, if_pos hc]
        have hval : (H.c0 - mult • H.c1).y = H.c0.y - H.c1.y := by rw [hy', hm1]; ring
        have hmeas : (H.c0 - mult • H.c1).y.natAbs < n := by
          rw [hval]; omega
        obtain ⟨H'', B'', hrun, hr2, hd2, hge, hlt2, hx0, hc1, hc2⟩ :=
          ih (colSubMul H 0 1 mult) (colSubMul B 0 1 mult) hrel' hdet' hpos h1x hmeas
        exact ⟨H'', B'', hrun, hr2, hd2, hge, hlt2, hx0.trans hx', hc1, hc2⟩
      · have hm1 : mult = -1 := by rw [hmult, if_neg hc]
        have hneg : H.c0.y < 0 := by
          rcases hcond with h | h
          · exact absurd h hc
          · exact h
        have hval : (H.c0 - mult • H.c1).y = H.c0.y + H.c1.y := by rw [hy', hm1]; ring
        by_cases hsub : (H.c0 - mult • H.c1).y < 0
        · have hmeas : (H.c0 - mult • H.c1).y.natAbs < n := by
            rw [hval] at hsub ⊢
            omega
          obtain ⟨H'', B'', hrun, hr2, hd2, hge, hlt2, hx0, hc1, hc2⟩ :=
            ih (colSubMul H 0 1 mult) (colSubMul B 0 1 mult) hrel' hdet' hpos h1x hmeas
          exact ⟨H'', B'', hrun, hr2, hd2, hge, hlt2, hx0.trans hx', hc1, hc2⟩
        · -- the new entry is already in range; the next iteration exits.
          push_neg at hsub
          have hlt2 : (H.c0 - mult • H.c1).y < H.c1.y := by
            rw [hval]; omega
          have hn1 : 1 ≤ n := by omega
          obtain ⟨k, hk⟩ : ∃ k, n = k + 1 := ⟨n - 1, by omega⟩
          rw [hk]
          unfold hnf_loop3
          rw [if_neg (by push_neg; exact ⟨hlt2, hsub⟩)]
          exact ⟨colSubMul H 0 1 mult, colSubMul B 0 1 mult, rfl, hrel', hdet',
            hsub, hlt2, hx', rfl, rfl⟩
    · rw [if_neg hcond]
      push_neg at hcond
      exact ⟨H, B, rfl, hrel, hdet, hcond.2, hcond.1, rfl, rfl, rfl⟩

theorem hnf_loop4_spec0 (S : Mat3 ℤ) : ∀ (fuel : ℕ) (H B : Mat3 ℤ),
    S * B = H → (B.det = 1 ∨ B.det = -1) → 0 < H.c2.z → H.c2.x = 0 → H.c2.y = 0 →
    H.c0.z.natAbs < fuel →
    ∃ H' B', hnf_loop4 0 fuel H B = Except.ok (H', B')
      ∧ S * B' = H' ∧ (B'.det = 1 ∨ B'.det = -1)
      ∧ 0 ≤ H'.c0.z ∧ H'.c0.z < H'.c2.z
      ∧ H'.c0.x = H.c0.x ∧ H'.c0.y = H.c0.y ∧ H'.c1 = H.c1 ∧ H'.c2 = H.c2 := by
  intro fuel
  induction fuel with
  | zero => intro H B _ _ _ _ _ hlt; omega
  | succ n ih =>
    intro H B hrel hdet hpos h2x h2y hlt
    unfold hnf_loop4
    by_cases hcond : H.c2.z ≤ (getCol H 0).z ∨ (getCol H 0).z < 0
    · rw [if_pos hcond]
      dsimp only
      set mult : ℤ := if H.c2.z ≤ (getCol H 0).z then 1 else -1 with hmult
      have hrel' : S * colSubMul B 0 2 mult = colSubMul H 0 2 mult := by
        rw [mul_colSubMul, hrel]
      have hdet' : (colSubMul B 0 2 mult).det = 1 ∨ (colSubMul B 0 2 mult).det = -1 := by
        rw [det_colSubMul_distinct B 0 2 mult (by omega) (by omega) (by omega)]
        exact hdet
      have hz' : (H.c0 - mult • H.c2).z = H.c0.z - mult * H.c2.z := rfl
      have hx' : (colSubMul H 0 2 mult).c0.x = H.c0.x := by
        show H.c0.x - mult * H.c2.x = H.c0.x
        rw [h2x]; ring
      have hy' : (colSubMul H 0 2 mult).c0.y = H.c0.y := by
        show H.c0.y - mult * H.c2.y = H.c0.y
        rw [h2y]; ring
      by_cases hc : H.c2.z ≤ (getCol H 0).z
      · have hm1 : mult = 1 := by rw [hmult, if_pos hc]
        have hcz : H.c2.z ≤ H.c0.z := hc
        have hval : (H.c0 - mult • H.c2).z = H.c0.z - H.c2.z := by rw [hz', hm1]; ring
        have hmeas : (H.c0 - mult • H.c2).z.natAbs < n := by
          rw [hval]; omega
        obtain ⟨H'', B'', hrun, hr2, hd2, hge, hlt2, hx0, hy0, hc1, hc2⟩ :=
          ih (colSubMul H 0 2 mult) (colSubMul B 0 2 mult) hrel' hdet' hpos h2x h2y hmeas
        exact ⟨H'', B'', hrun, hr2, hd2, hge, hlt2, hx0.trans hx', hy0.trans hy', hc1, hc2⟩
      · have hm1 : mult = -1 := by rw [hmult, if_neg hc]
        have hneg : H.c0.z < 0 := by
          rcases hcond with h | h
          · exact absurd h hc
          · exact h
        have hval : (H.c0 - mult • H.c2).z = H.c0.z + H.c2.z := by rw [hz', hm1]; ring
        by_cases hsub : (H.c0 - mult • H.c2).z < 0
        · have hmeas : (H.c0 - mult • H.c2).z.natAbs < n := by
            rw [hval] at hsub ⊢
            omega
          obtain ⟨H'', B'', hrun, hr2, hd2, hge, hlt2, hx0, hy0, hc1, hc2⟩ :=
            ih (colSubMul H 0 2 mult) (colSubMul B 0 2 mult) hrel' hdet' hpos h2x h2y hmeas
          exact ⟨H'', B'', hrun, hr2, hd2, hge, hlt2, hx0.trans hx', hy0.trans hy', hc1, hc2⟩
        · push_neg at hsub
          have hlt2 : (H.c0 - mult • H.c2).z < H.c2.z := by
            rw [hval]; omega
          obtain ⟨k, hk⟩ : ∃ k, n = k + 1 := ⟨n - 1, by omega⟩
          rw [hk]
          unfold hnf_loop4
          rw [if_neg (by push_neg; exact ⟨hlt2, hsub⟩)]
          exact ⟨colSubMul H 0 2 mult, colSubMul B 0 2 mult, rfl, hrel', hdet',
            hsub, hlt2, hx', hy', rfl, rfl⟩
    · rw [if_neg hcond]
      push_neg at hcond
      exact ⟨H, B, rfl, hrel, hdet, hcond.2, hcond.1, rfl, rfl, rfl, rfl⟩

theorem hnf_loop4_spec1 (S : Mat3 ℤ) : ∀ (fuel : ℕ) (H B : Mat3 ℤ),
    S * B = H → (B.det = 1 ∨ B.det = -1) → 0 < H.c2.z → H.c2.x = 0 → H.c2.y = 0 →
    H.c1.z.natAbs < fuel →
    ∃ H' B', hnf_loop4 1 fuel H B = Except.ok (H', B')
      ∧ S * B' = H' ∧ (B'.det = 1 ∨ B'.det = -1)
      ∧ 0 ≤ H'.c1.z ∧ H'.c1.z < H'.c2.z
      ∧ H'.c0 = H.c0 ∧ H'.c1.x = H.c1.x ∧ H'.c1.y = H.c1.y ∧ H'.c2 = H.c2 := by
  intro fuel
  induction fuel with
  | zero => intro H B _ _ _ _ _ hlt; omega
  | succ n ih =>
    intro H B hrel hdet hpos h2x h2y hlt
    unfold hnf_loop4
    by_cases hcond : H.c2.z ≤ (getCol H 1).z ∨ (getCol H 1).z < 0
    · rw [if_pos hcond]
      dsimp only
      set mult : ℤ := if H.c2.z ≤ (getCol H 1).z then 1 else -1 with hmult
      have hrel' : S * colSubMul B 1 2 mult = colSubMul H 1 2 mult := by
        rw [mul_colSubMul, hrel]
      have hdet' : (colSubMul B 1 2 mult).det = 1 ∨ (colSubMul B 1 2 mult).det = -1 := by
        rw [det_colSubMul_distinct B 1 2 mult (by omega) (by omega) (by omega)]
        exact hdet
      have hz' : (H.c1 - mult • H.c2).z = H.c1.z - mult * H.c2.z := rfl
      have hx' : (colSubMul H 1 2 mult).c1.x = H.c1.x := by
        show H.c1.x - mult * H.c2.x = H.c1.x
        rw [h2x]; ring
      have hy' : (colSubMul H 1 2 mult).c1.y = H.c1.y := by
        show H.c1.y - mult * H.c2.y = H.c1.y
        rw [h2y]; ring
      by_cases hc : H.c2.z ≤ (getCol H 1).z
      · have hm1 : mult = 1 := by rw [hmult, if_pos hc]
        have hcz : H.c2.z ≤ H.c1.z := hc
        have hval : (H.c1 - mult • H.c2).z = H.c1.z - H.c2.z := by rw [hz', hm1]; ring
        have hmeas : (H.c1 - mult • H.c2).z.natAbs < n := by
          rw [hval]; omega
        obtain ⟨H'', B'', hrun, hr2, hd2, hge, hlt2, hc0, hx0, hy0, hc2⟩ :=
          ih (colSubMul H 1 2 mult) (colSubMul B 1 2 mult) hrel' hdet' hpos h2x h2y hmeas
        exact ⟨H'', B'', hrun, hr2, hd2, hge, hlt2, hc0, hx0.trans hx', hy0.trans hy', hc2⟩
      · have hm1 : mult = -1 := by rw [hmult, if_neg hc]
        have hneg : H.c1.z < 0 := by
          rcases hcond with h | h
          · exact absurd h hc
          · exact h
        have hval : (H.c1 - mult • H.c2).z = H.c1.z + H.c2.z := by rw [hz', hm1]; ring
        by_cases hsub : (H.c1 - mult • H.c2).z < 0
        · have hmeas : (H.c1 - mult • H.c2).z.natAbs < n := by
            rw [hval] at hsub ⊢
            omega
          obtain ⟨H'', B'', hrun, hr2, hd2, hge, hlt2, hc0, hx0, hy0, hc2⟩ :=
            ih (colSubMul H 1 2 mult) (colSubMul B 1 2 mult) hrel' hdet' hpos h2x h2y hmeas
          exact ⟨H'', B'', hrun, hr2, hd2, hge, hlt2, hc0, hx0.trans hx', hy0.trans hy', hc2⟩
        · push_neg at hsub
          have hlt2 : (H.c1 - mult • H.c2).z < H.c2.z := by
            rw [hval]; omega
          obtain ⟨k, hk⟩ : ∃ k, n = k + 1 := ⟨n - 1, by omega⟩
          rw [hk]
          unfold hnf_loop4
          rw [if_neg (by push_neg; exact ⟨hlt2, hsub⟩)]
          exact ⟨colSubMul H 1 2 mult, colSubMul B 1 2 mult, rfl, hrel', hdet',
            hsub, hlt2, rfl, hx', hy', rfl⟩
    · rw [if_neg hcond]
      push_neg at hcond
      exact ⟨H, B, rfl, hrel, hdet, hcond.2, hcond.1, rfl, rfl, rfl, rfl⟩

theorem mat_mul_one (M : Mat3 ℤ) : M * 1 = M := by
  rcases M with ⟨⟨a, b, c⟩, ⟨d, e, f⟩, ⟨g, h, i⟩⟩
  simp only [Mat3.one_def, Mat3.mul_def, Mat3.mulVec, Vec3.smul_def, Vec3.add_def,
    Mat3.meq_iff, Vec3.ext_iff]
  refine ⟨⟨by ring, by ring, by ring⟩, ⟨by ring, by ring, by ring⟩, by ring, by ring, by ring⟩

theorem det_mat_one : (1 : Mat3 ℤ).det = 1 := by decide

theorem mul_swapCols01 (S B : Mat3 ℤ) :
    S * swapColsInt B 0 1 = swapColsInt (S * B) 0 1 := rfl

theorem mul_swapCols02 (S B : Mat3 ℤ) :
    S * swapColsInt B 0 2 = swapColsInt (S * B) 0 2 := rfl

theorem det_swapCols01 (M : Mat3 ℤ) : (swapColsInt M 0 1).det = -M.det := by
  rcases M with ⟨⟨a, b, c⟩, ⟨e, f, g⟩, ⟨h, i, j⟩⟩
  simp only [swapColsInt, setCol, getCol, Mat3.det]
  ring

theorem det_swapCols02 (M : Mat3 ℤ) : (swapColsInt M 0 2).det = -M.det := by
  rcases M with ⟨⟨a, b, c⟩, ⟨e, f, g⟩, ⟨h, i, j⟩⟩
  simp only [swapColsInt, setCol, getCol, Mat3.det]
  ring

theorem det_lower (M : Mat3 ℤ) (h1 : M.c1.x = 0) (h2 : M.c2.x = 0) (h3 : M.c2.y = 0) :
    M.det = M.c0.x * M.c1.y * M.c2.z := by
  unfold Mat3.det
  rw [h1, h2, h3]
  ring

theorem countNonzero_le_one_cases (M : Mat3 ℤ) (h : countNonzero M.row0 ≤ 1) :
    (M.c0.x ≠ 0 → M.c1.x = 0 ∧ M.c2.x = 0)
    ∧ (M.c1.x ≠ 0 → M.c0.x = 0 ∧ M.c2.x = 0)
    ∧ (M.c2.x ≠ 0 → M.c0.x = 0 ∧ M.c1.x = 0) := by
  unfold countNonzero Mat3.row0 at h
  dsimp only at h
  split_ifs at h <;> refine ⟨?_, ?_, ?_⟩ <;> intro hne <;> omega

theorem countNonzero_single (a : ℤ) (ha : a ≠ 0) :
    countNonzero ⟨a, 0, 0⟩ = 1 := by
  unfold countNonzero
  simp [ha]

/-- C4: `HermiteNormalForm` on a nonsingular 3×3 integer matrix `S` returns
`(H, B)` with `S·B = H` exactly, `H` lower-triangular with positive diagonal,
every below-diagonal entry `H[i][j]` satisfying `0 ≤ H[i][j] < H[i][i]`, and
`B` unimodular (`det B = ±1`); on a singular matrix it raises the
singular-matrix `ValueError` instead. -/
theorem HermiteNormalForm_spec (S : Mat3 ℤ) :
    (S.det ≠ 0 → ∃ H B, HermiteNormalForm S = Except.ok (H, B)
      ∧ S * B = H
      ∧ H.c1.x = 0 ∧ H.c2.x = 0 ∧ H.c2.y = 0
      ∧ 0 < H.c0.x ∧ 0 < H.c1.y ∧ 0 < H.c2.z
      ∧ 0 ≤ H.c0.y ∧ H.c0.y < H.c1.y
      ∧ 0 ≤ H.c0.z ∧ H.c0.z < H.c2.z
      ∧ 0 ≤ H.c1.z ∧ H.c1.z < H.c2.z
      ∧ (B.det = 1 ∨ B.det = -1))
    ∧ (S.det = 0 → HermiteNormalForm S = Except.error PyErr.singularMatrix) := by
  constructor
  · intro hdet
    unfold HermiteNormalForm
    rw [if_neg hdet]
    obtain ⟨H1, B1, hrun1, hrel1, hdet1, hcnt1⟩ :=
      hnf_loop1_spec S (rowAbsSum S.row0 + 1) S 1 (mat_mul_one S)
        (Or.inl det_mat_one) (by omega)
    rw [hrun1]
    dsimp only
    have hH1det : H1.det ≠ 0 := by
      rw [← hrel1, Mat3.det_mul]
      rcases hdet1 with h | h <;> rw [h] <;> simpa using hdet
    -- Stage: make H[0,0] the only nonzero entry of row 0 and positive.
    have hstage1 : ∀ p2 : Mat3 ℤ × Mat3 ℤ,
        p2 = (if H1.c0.x = 0 then swap_column0 H1 B1 else (H1, B1)) →
        S * p2.2 = p2.1 ∧ (p2.2.det = 1 ∨ p2.2.det = -1)
          ∧ p2.1.c0.x ≠ 0 ∧ p2.1.c1.x = 0 ∧ p2.1.c2.x = 0 := by
      intro p2 hp2
      obtain ⟨hcase0, hcase1, hcase2⟩ := countNonzero_le_one_cases H1 hcnt1
      by_cases hx0 : H1.c0.x = 0
      · rw [if_pos hx0] at hp2
        by_cases hx1 : H1.c1.x = 0
        · -- only c2.x can be nonzero; it must be, else det H1 = 0.
          have hx2 : H1.c2.x ≠ 0 := by
            intro hx2
            exact hH1det (by
              unfold Mat3.det
              rw [hx0, hx1, hx2]
              ring)
          have hswap : swap_column0 H1 B1 = (swapColsInt H1 0 2, swapColsInt B1 0 2) := by
            unfold swap_column0
            dsimp only
            rw [hx0, hx1]
            rw [if_neg (by simpa using hx2), if_neg (by simpa using hx2)]
          rw [hswap] at hp2
          subst hp2
          refine ⟨?_, ?_, ?_, ?_, ?_⟩
          · rw [mul_swapCols02, hrel1]
          · rw [det_swapCols02]
            rcases hdet1 with h | h <;> [right; left] <;> rw [h] <;> ring
          · exact hx2
          · exact hx1
          · exact hx0
        · have hx2 : H1.c2.x = 0 := (hcase1 hx1).2
          have hswap : swap_column0 H1 B1 = (swapColsInt H1 0 1, swapColsInt B1 0 1) := by
            unfold swap_column0
            dsimp only
            rw [hx0, hx2]
            rw [if_neg (by simpa using hx1), if_pos (by simp)]
          rw [hswap] at hp2
          subst hp2
          refine ⟨?_, ?_, ?_, ?_, ?_⟩
          · rw [mul_swapCols01, hrel1]
          · rw [det_swapCols01]
            rcases hdet1 with h | h <;> [right; left] <;> rw [h] <;> ring
          · exact hx1
          · exact hx0
          · exact hx2
      · rw [if_neg hx0] at hp2
        subst hp2
        exact ⟨hrel1, hdet1, hx0, (hcase0 hx0).1, (hcase0 hx0).2⟩
    obtain ⟨hrel2, hdet2, hx2ne, h1x2, h2x2⟩ := hstage1 _ rfl
    set p2 := (if H1.c0.x = 0 then swap_column0 H1 B1 else (H1, B1)) with hp2def
    -- Stage: sign of H[0,0].
    have hstage2 : ∀ p3 : Mat3 ℤ × Mat3 ℤ,
        p3 = (if p2.1.c0.x < 0 then (negCol p2.1 0, negCol p2.2 0) else p2) →
        S * p3.2 = p3.1 ∧ (p3.2.det = 1 ∨ p3.2.det = -1)
          ∧ 0 < p3.1.c0.x ∧ p3.1.c1.x = 0 ∧ p3.1.c2.x = 0 := by
      intro p3 hp3
      by_cases hneg : p2.1.c0.x < 0
      · rw [if_pos hneg] at hp3
        subst hp3
        refine ⟨?_, ?_, ?_, ?_, ?_⟩
        · rw [mul_negCol, hrel2]
        · rw [det_negCol p2.2 0 (by omega)]
          rcases hdet2 with h | h <;> [right; left] <;> rw [h] <;> ring
        · show 0 < -p2.1.c0.x
          omega
        · show p2.1.c1.x = 0
          exact h1x2
        · show p2.1.c2.x = 0
          exact h2x2
      · rw [if_neg hneg] at hp3
        subst hp3
        exact ⟨hrel2, hdet2, by omega, h1x2, h2x2⟩
    obtain ⟨hrel3, hdet3, hx3pos, h1x3, h2x3⟩ := hstage2 _ rfl
    set p3 := (if p2.1.c0.x < 0 then (negCol p2.1 0, negCol p2.2 0) else p2) with hp3def
    have hrow3 : p3.1.row0 = ⟨p3.1.c0.x, 0, 0⟩ := by
      unfold Mat3.row0
      rw [h1x3, h2x3]
    rw [if_neg (by rw [hrow3, countNonzero_single _ (by omega)]; omega)]
    rw [if_neg (by simp [hrel3])]
    obtain ⟨H4, B4, hrun2, hrel4, hdet4, h2y4, hc04, h1x4, h2x4⟩ :=
      hnf_loop2_spec S (p3.1.c1.y.natAbs + p3.1.c2.y.natAbs + 1) p3.1 p3.2 hrel3 hdet3
        h1x3 h2x3 (by omega)
    rw [hrun2]
    dsimp only
    have hx4pos : 0 < H4.c0.x := by rw [hc04]; exact hx3pos
    have hH4det : H4.det ≠ 0 := by
      rw [← hrel4, Mat3.det_mul]
      rcases hdet4 with h | h <;> rw [h] <;> simpa using hdet
    have h1y4 : H4.c1.y ≠ 0 := by
      intro hz
      exact hH4det (by rw [det_lower H4 h1x4 h2x4 h2y4, hz]; ring)
    rw [if_neg h1y4]
    -- Stage: sign of H[1,1].
    have hstage6 : ∀ p6 : Mat3 ℤ × Mat3 ℤ,
        p6 = (if H4.c1.y < 0 then (negCol H4 1, negCol B4 1) else (H4, B4)) →
        S * p6.2 = p6.1 ∧ (p6.2.det = 1 ∨ p6.2.det = -1)
          ∧ 0 < p6.1.c0.x ∧ p6.1.c1.x = 0 ∧ p6.1.c2.x = 0
          ∧ 0 < p6.1.c1.y ∧ p6.1.c2.y = 0 ∧ p6.1.c2 = H4.c2 := by
      intro p6 hp6
      by_cases hneg : H4.c1.y < 0
      · rw [if_pos hneg] at hp6
        subst hp6
        refine ⟨?_, ?_, ?_, ?_, ?_, ?_, ?_, ?_⟩
        · rw [mul_negCol, hrel4]
        · rw [det_negCol B4 1 (by omega)]
          rcases hdet4 with h | h <;> [right; left] <;> rw [h] <;> ring
        · exact hx4pos
        · show -H4.c1.x = 0
          rw [h1x4]; ring
        · exact h2x4
        · show 0 < -H4.c1.y
          omega
        · exact h2y4
        · rfl
      · rw [if_neg hneg] at hp6
        subst hp6
        exact ⟨hrel4, hdet4, hx4pos, h1x4, h2x4, by show 0 < H4.c1.y; omega, h2y4, rfl⟩
    obtain ⟨hrel6, hdet6, hx6pos, h1x6, h2x6, h1y6pos, h2y6, hc26⟩ := hstage6 _ rfl
    set p6 := (if H4.c1.y < 0 then (negCol H4 1, negCol B4 1) else (H4, B4)) with hp6def
    rw [if_neg (by simp [h2y6])]
    rw [if_neg (by simp [hrel6])]
    have hp6det : p6.1.det ≠ 0 := by
      rw [← hrel6, Mat3.det_mul]
      rcases hdet6 with h | h <;> rw [h] <;> simpa using hdet
    have h2z6 : p6.1.c2.z ≠ 0 := by
      intro hz
      exact hp6det (by rw [det_lower p6.1 h1x6 h2x6 h2y6, hz]; ring)
    -- Stage: sign of H[2,2].
    have hstage7 : ∀ p7 : Mat3 ℤ × Mat3 ℤ,
        p7 = (if p6.1.c2.z < 0 then (negCol p6.1 2, negCol p6.2 2) else p6) →
        S * p7.2 = p7.1 ∧ (p7.2.det = 1 ∨ p7.2.det = -1)
          ∧ 0 < p7.1.c0.x ∧ p7.1.c1.x = 0 ∧ p7.1.c2.x = 0
          ∧ 0 < p7.1.c1.y ∧ p7.1.c2.y = 0 ∧ 0 < p7.1.c2.z := by
      intro p7 hp7
      by_cases hneg : p6.1.c2.z < 0
      · rw [if_pos hneg] at hp7
        subst hp7
        refine ⟨?_, ?_, ?_, ?_, ?_, ?_, ?_, ?_⟩
        · rw [mul_negCol, hrel6]
        · rw [det_negCol p6.2 2 (by omega)]
          rcases hdet6 with h | h <;> [right; left] <;> rw [h] <;> ring
        · exact hx6pos
        · exact h1x6
        · show -p6.1.c2.x = 0
          rw [h2x6]; ring
        · exact h1y6pos
        · show -p6.1.c2.y = 0
          rw [h2y6]; ring
        · show 0 < -p6.1.c2.z
          omega
      · rw [if_neg hneg] at hp7
        subst hp7
        exact ⟨hrel6, hdet6, hx6pos, h1x6, h2x6, h1y6pos, h2y6, by omega⟩
    obtain ⟨hrel7, hdet7, hx7pos, h1x7, h2x7, h1y7pos, h2y7, h2z7pos⟩ := hstage7 _ rfl
    set p7 := (if p6.1.c2.z < 0 then (negCol p6.1 2, negCol p6.2 2) else p6) with hp7def
    rw [if_neg (by push_neg; simp [h1x7, h2x7, h2y7])]
    rw [if_neg (by simp [hrel7])]
    obtain ⟨H8, B8, hrun3, hrel8, hdet8, h0y8ge, h0y8lt, h0x8, hc18, hc28⟩ :=
      hnf_loop3_spec S (p7.1.c0.y.natAbs + 1) p7.1 p7.2 hrel7 hdet7 h1y7pos h1x7 (by omega)
    rw [hrun3]
    dsimp only
    have hx8pos : 0 < H8.c0.x := by rw [h0x8]; exact hx7pos
    have h1y8pos : 0 < H8.c1.y := by rw [hc18]; exact h1y7pos
    have h1x8 : H8.c1.x = 0 := by rw [hc18]; exact h1x7
    have h2x8 : H8.c2.x = 0 := by rw [hc28]; exact h2x7
    have h2y8 : H8.c2.y = 0 := by rw [hc28]; exact h2y7
    have h2z8pos : 0 < H8.c2.z := by rw [hc28]; exact h2z7pos
    obtain ⟨H9, B9, hrun4, hrel9, hdet9, h0z9ge, h0z9lt, h0x9, h0y9, hc19, hc29⟩ :=
      hnf_loop4_spec0 S (H8.c0.z.natAbs + 1) H8 B8 hrel8 hdet8 h2z8pos h2x8 h2y8 (by omega)
    rw [hrun4]
    dsimp only
    have hx9pos : 0 < H9.c0.x := by rw [h0x9]; exact hx8pos
    have h1y9pos : 0 < H9.c1.y := by rw [hc19]; exact h1y8pos
    have h1x9 : H9.c1.x = 0 := by rw [hc19]; exact h1x8
    have h2x9 : H9.c2.x = 0 := by rw [hc29]; exact h2x8
    have h2y9 : H9.c2.y = 0 := by rw [hc29]; exact h2y8
    have h2z9pos : 0 < H9.c2.z := by rw [hc29]; exact h2z8pos
    have h0y9ge : 0 ≤ H9.c0.y := by rw [h0y9]; exact h0y8ge
    have h0y9lt : H9.c0.y < H9.c1.y := by rw [h0y9, hc19]; exact h0y8lt
    obtain ⟨H10, B10, hrun5, hrel10, hdet10, h1z10ge, h1z10lt, hc010, h1x10, h1y10, hc210⟩ :=
      hnf_loop4_spec1 S (H9.c1.z.natAbs + 1) H9 B9 hrel9 hdet9 h2z9pos h2x9 h2y9 (by omega)
    rw [hrun5]
    dsimp only
    have hx10pos : 0 < H10.c0.x := by rw [hc010]; exact hx9pos
    have h1y10pos : 0 < H10.c1.y := by rw [h1y10]; exact h1y9pos
    have h1x10z : H10.c1.x = 0 := by rw [h1x10]; exact h1x9
    have h2x10 : H10.c2.x = 0 := by rw [hc210]; exact h2x9
    have h2y10 : H10.c2.y = 0 := by rw [hc210]; exact h2y9
    have h2z10pos : 0 < H10.c2.z := by rw [hc210]; exact h2z9pos
    have h0y10ge : 0 ≤ H10.c0.y := by rw [hc010]; exact h0y9ge
    have h0y10lt : H10.c0.y < H10.c1.y := by rw [hc010, h1y10]; exact h0y9lt
    have h0z10ge : 0 ≤ H10.c0.z := by rw [hc010]; exact h0z9ge
    have h0z10lt : H10.c0.z < H10.c2.z := by rw [hc010, hc210]; exact h0z9lt
    rw [if_neg (by simp [hrel10])]
    rw [if_neg (by push_neg; exact ⟨h1x10z, h2x10, h2y10⟩)]
    rw [if_neg (by push_neg; exact ⟨by omega, by omega, by omega, by omega, by omega, by omega⟩)]
    rw [if_neg (by push_neg; exact ⟨by omega, by omega, by omega⟩)]
    exact ⟨H10, B10, rfl, hrel10, h1x10z, h2x10, h2y10, hx10pos, h1y10pos, h2z10pos,
      h0y10ge, h0y10lt, h0z10ge, h0z10lt, h1z10ge, h1z10lt, hdet10⟩
  · intro hdet0
    unfold HermiteNormalForm
    rw [if_pos hdet0]

/-- Witness for `HermiteNormalForm_spec` at `S = diag(2,2,2)` (the spec's
concrete scenario: `H = S`, `B = I`). -/
theorem HermiteNormalForm_spec_witness :
    ((⟨⟨2, 0, 0⟩, ⟨0, 2, 0⟩, ⟨0, 0, 2⟩⟩ : Mat3 ℤ).det ≠ 0)
    ∧ (∃ H B, HermiteNormalForm ⟨⟨2, 0, 0⟩, ⟨0, 2, 0⟩, ⟨0, 0, 2⟩⟩ = Except.ok (H, B)
      ∧ (⟨⟨2, 0, 0⟩, ⟨0, 2, 0⟩, ⟨0, 0, 2⟩⟩ : Mat3 ℤ) * B = H
      ∧ H.c1.x = 0 ∧ H.c2.x = 0 ∧ H.c2.y = 0
      ∧ 0 < H.c0.x ∧ 0 < H.c1.y ∧ 0 < H.c2.z
      ∧ 0 ≤ H.c0.y ∧ H.c0.y < H.c1.y
      ∧ 0 ≤ H.c0.z ∧ H.c0.z < H.c2.z
      ∧ 0 ≤ H.c1.z ∧ H.c1.z < H.c2.z
      ∧ (B.det = 1 ∨ B.det = -1)) :=
  ⟨by decide, (HermiteNormalForm_spec ⟨⟨2, 0, 0⟩, ⟨0, 2, 0⟩, ⟨0, 0, 2⟩⟩).1 (by decide)⟩

/-- C5: for the simple-cubic lattice (lattice vectors the identity matrix,
i.e. a=b=c=1 and all interaxial angles π/2) at the source's default
tolerances (rtol=1e-4, atol=1e-6, eps=1e-9), the point-group search returns
exactly 48 operators, pairwise distinct even up to the `np.allclose`
tolerance used for deduplication. -/
theorem get_point_group_cubic_48 :
    (get_point_group 1 (1/10000) (1/1000000) (1/1000000000)).length = 48
    ∧ (get_point_group 1 (1/10000) (1/1000000) (1/1000000000)).Pairwise
        (fun A B => allcloseM A B (1/10000) (1/1000000) = false) := by
  constructor
  · decide
  · decide

theorem forall2_of_mem_pairs {α β : Type} (R : α → β → Prop) :
    ∀ l : List (α × β), (∀ p ∈ l, R p.1 p.2) →
      List.Forall₂ R (l.map Prod.fst) (l.map Prod.snd)
  | [], _ => List.Forall₂.nil
  | p :: l, h => List.Forall₂.cons (h p (List.mem_cons_self p l))
      (forall2_of_mem_pairs R l (fun q hq => h q (List.mem_cons_of_mem p hq)))

/-- Facts about parallel lists built by unzipping a list of pairs whose
members all satisfy `P` on the first component and `R` on the pair. -/
theorem pairs_spec {A B : Type} (P : A → Prop) (R : A → B → Prop)
    (l : List (A × B)) (pg : List A) (tr : List B)
    (hl : ∀ p ∈ l, P p.1 ∧ R p.1 p.2)
    (h : (l.map Prod.fst, l.map Prod.snd) = (pg, tr)) :
    pg.length = tr.length ∧ (∀ op ∈ pg, P op) ∧ List.Forall₂ R pg tr := by
  obtain ⟨h1, h2⟩ := (Prod.mk.injEq _ _ _ _).mp h
  subst h1
  subst h2
  refine ⟨by simp only [List.length_map], ?_, ?_⟩
  · intro op hop
    obtain ⟨p, hp, hfst⟩ := List.mem_map.1 hop
    exact hfst ▸ (hl p hp).1
  · exact forall2_of_mem_pairs R l (fun p hp => (hl p hp).2)

/-- C10: whenever `get_space_group` returns normally, the operator and
fractional-translation lists have equal length; the `i`-th translation is
paired with the `i`-th operator and the pair was appended only because it
maps every atom onto an atom of the same label (within tolerance); and every
returned operator is a member of the lattice point group computed by
`get_point_group` on the same lattice vectors and tolerances. -/
theorem get_space_group_spec (lattice_vectors : Mat3 ℚ) (atom_labels : List ℤ)
    (atom_positions : List (Vec3 ℚ)) (coords : Coords) (rtol atol eps : ℚ)
    (pg : List (Mat3 ℚ)) (tr : List (Vec3 ℚ))
    (h : get_space_group lattice_vectors atom_labels atom_positions coords rtol atol eps
      = Except.ok (pg, tr)) :
    pg.length = tr.length
    ∧ (∀ op ∈ pg, op ∈ get_point_group lattice_vectors rtol atol eps)
    ∧ List.Forall₂ (fun op t =>
        spaceOpValid lattice_vectors atom_labels atom_positions coords rtol atol op t
          = true) pg tr := by
  unfold get_space_group at h
  dsimp only at h
  rcases hL : atom_labels with _ | ⟨ft, Ls⟩ <;>
    rcases hB : atomicBasisOf lattice_vectors atom_positions coords rtol atol
      with _ | ⟨fp, Bs⟩ <;>
    rw [hL, hB] at h <;> dsimp only at h
  · exact Except.noConfusion h
  · exact Except.noConfusion h
  · exact Except.noConfusion h
  injection h with h2
  refine pairs_spec _ _ _ pg tr ?_ h2
  intro p hp
  obtain ⟨lpg, hlpg, hin⟩ := List.mem_flatMap.1 hp
  obtain ⟨ai, hai, heq⟩ := List.mem_filterMap.1 hin
  split at heq
  · exact Option.noConfusion heq
  split at heq
  case isTrue hall =>
    injection heq with heq2
    subst heq2
    refine ⟨hlpg, ?_⟩
    unfold spaceOpValid
    dsimp only
    rw [hB]
    exact hall
  case isFalse =>
    exact Option.noConfusion heq

/-- Witness for `get_space_group_spec`: the simple-cubic lattice decorated
with a single atom at the origin. -/
theorem get_space_group_spec_witness :
    ∃ pg tr,
      get_space_group 1 [0] [0] Coords.lat (1/10000) (1/1000000) (1/1000000000)
        = Except.ok (pg, tr)
      ∧ (pg.length = tr.length
        ∧ (∀ op ∈ pg, op ∈ get_point_group 1 (1/10000) (1/1000000) (1/1000000000))
        ∧ List.Forall₂ (fun op t =>
            spaceOpValid 1 [0] [0] Coords.lat (1/10000) (1/1000000) op t = true) pg tr) := by
  have hok : exceptIsOk
      (get_space_group 1 [0] [0] Coords.lat (1/10000) (1/1000000) (1/1000000000)) = true := by
    unfold get_space_group
    dsimp only
    rcases hB : atomicBasisOf 1 [0] Coords.lat (1/10000) (1/1000000) with _ | ⟨fp, Bs⟩
    · exact absurd hB (by decide)
    · rfl
  cases hm : get_space_group 1 [0] [0] Coords.lat (1/10000) (1/1000000) (1/1000000000) with
  | ok v =>
    obtain ⟨pg, tr⟩ := v
    exact ⟨pg, tr, rfl,
      get_space_group_spec 1 [0] [0] Coords.lat (1/10000) (1/1000000) (1/1000000000) pg tr hm⟩
  | error e =>
    rw [hm] at hok
    exact absurd hok (by simp [exceptIsOk])

theorem vec_add_zero (v : Vec3 ℚ) : v + (0 : Vec3 ℚ) = v := by
  rcases v with ⟨x, y, z⟩
  simp

theorem orbit_inner_congr {α : Type} (a1 a2 : α → Vec3 ℚ → Vec3 ℚ)
    (rlat invK : Mat3 ℚ) (L : Mat3 ℤ) (D : Vec3 ℤ) (shiftC : Vec3 ℚ)
    (artol aatol : ℚ) (re : ℕ) (cOrbit : ℕ) (ur_kpt : Vec3 ℚ) :
    ∀ (ops : List α) (ht : List (Option ℕ)) (wt : ℕ),
      (∀ op ∈ ops, a1 op ur_kpt = a2 op ur_kpt) →
      orbit_inner a1 rlat invK L D shiftC artol aatol re cOrbit ur_kpt ops ht wt
        = orbit_inner a2 rlat invK L D shiftC artol aatol re cOrbit ur_kpt ops ht wt
  | [], _, _, _ => rfl
  | op :: rest, ht, wt, h => by
    have hrec : ∀ ht' wt',
        orbit_inner a1 rlat invK L D shiftC artol aatol re cOrbit ur_kpt rest ht' wt'
          = orbit_inner a2 rlat invK L D shiftC artol aatol re cOrbit ur_kpt rest ht' wt' :=
      fun ht' wt' => orbit_inner_congr a1 a2 rlat invK L D shiftC artol aatol re cOrbit
        ur_kpt rest ht' wt' (fun op' h' => h op' (List.mem_cons_of_mem op h'))
    simp only [orbit_inner, h op (List.mem_cons_self op rest), hrec]

theorem orbit_outer_congr {α : Type} (a1 a2 : α → Vec3 ℚ → Vec3 ℚ) (ops : List α)
    (rlat invK : Mat3 ℚ) (L : Mat3 ℤ) (D : Vec3 ℤ) (shiftC : Vec3 ℚ)
    (artol aatol : ℚ) (re : ℕ)
    (hops : ∀ op ∈ ops, ∀ k, a1 op k = a2 op k) :
    ∀ (pts : List (Vec3 ℚ)) (i : ℕ) (ht : List (Option ℕ)) (c : ℕ) (iF iW : List ℕ),
      orbit_outer a1 ops rlat invK L D shiftC artol aatol re pts i ht c iF iW
        = orbit_outer a2 ops rlat invK L D shiftC artol aatol re pts i ht c iF iW
  | [], _, _, _, _, _ => rfl
  | kpt :: rest, i, ht, c, iF, iW => by
    have hin := orbit_inner_congr a1 a2 rlat invK L D shiftC artol aatol re (c + 1) kpt
      ops (ht.set (find_kpt_index (kpt - shiftC) invK L D re).toNat (some (c + 1))) 1
      (fun op h' => hops op h' kpt)
    have hrec : ∀ (i' : ℕ) (ht' : List (Option ℕ)) (c' : ℕ) (iF' iW' : List ℕ),
        orbit_outer a1 ops rlat invK L D shiftC artol aatol re rest i' ht' c' iF' iW'
          = orbit_outer a2 ops rlat invK L D shiftC artol aatol re rest i' ht' c' iF' iW' :=
      fun i' ht' c' iF' iW' => orbit_outer_congr a1 a2 ops rlat invK L D shiftC artol
        aatol re hops rest i' ht' c' iF' iW'
    simp only [orbit_outer, hin, hrec]

theorem orbit_outer_weight_len {α : Type} (apply : α → Vec3 ℚ → Vec3 ℚ) (ops : List α)
    (rlat invK : Mat3 ℚ) (L : Mat3 ℤ) (D : Vec3 ℤ) (shiftC : Vec3 ℚ)
    (artol aatol : ℚ) (re : ℕ) :
    ∀ (pts : List (Vec3 ℚ)) (i : ℕ) (ht : List (Option ℕ)) (c : ℕ) (iF iW : List ℕ)
      (c' : ℕ) (iF' iW' : List ℕ),
      orbit_outer apply ops rlat invK L D shiftC artol aatol re pts i ht c iF iW
        = Except.ok (c', iF', iW') → iW.length = c → iW'.length = c'
  | [], i, ht, c, iF, iW, c', iF', iW', h, hlen => by
    simp only [orbit_outer] at h
    injection h with h2
    obtain ⟨hc, hFW⟩ := Prod.mk.injEq _ _ _ _ |>.mp h2
    obtain ⟨hF, hW⟩ := Prod.mk.injEq _ _ _ _ |>.mp hFW
    rw [← hW, ← hc]
    exact hlen
  | kpt :: rest, i, ht, c, iF, iW, c', iF', iW', h, hlen => by
    simp only [orbit_outer] at h
    split at h
    · exact Except.noConfusion h
    split at h
    · exact orbit_outer_weight_len apply ops rlat invK L D shiftC artol aatol re rest
        (i + 1) ht c iF iW c' iF' iW' h hlen
    split at h
    · exact Except.noConfusion h
    case _ ht2 wt heq =>
      exact orbit_outer_weight_len apply ops rlat invK L D shiftC artol aatol re rest
        (i + 1) ht2 (c + 1) (iF ++ [i]) (iW ++ [wt]) c' iF' iW' h
        (by simp [hlen])

/-- The triclinic example lattice: columns `(5,0,0)`, `(1,6,0)`, `(1,1,7)`.
Its sphere search returns only the origin and the six `±` lattice vectors,
and its point group is `{I, -I}`. -/
def Ttri : Mat3 ℚ := ⟨⟨5, 0, 0⟩, ⟨1, 6, 0⟩, ⟨1, 1, 7⟩⟩

/-- C3: whenever `reduce_kpoint_list` returns normally, the orbit weights sum
exactly to the number of unreduced k-points — the function verifies this and
raises the consistency `ValueError` otherwise.  (`find_orbits` performs no
such check; see its counterexample, which returns normally with
`sum(weights) = 1` on a 2-point list.) -/
theorem reduce_kpoint_list_weight_sum (pointgroup : List (Mat3 ℚ))
    (snf : Mat3 ℤ → Mat3 ℤ × Mat3 ℤ × Mat3 ℤ) (kpoint_list : List (Vec3 ℚ))
    (lattice_vectors grid_vectors : Mat3 ℚ) (shift : Vec3 ℚ) (eps : ℕ) (rtol atol : ℚ)
    (rk : List (Vec3 ℚ)) (w : List ℕ)
    (h : reduce_kpoint_list pointgroup snf kpoint_list lattice_vectors grid_vectors shift
      eps rtol atol = Except.ok (rk, w)) :
    w.sum = kpoint_list.length := by
  unfold reduce_kpoint_list at h
  split at h
  · exact Except.noConfusion h
  split at h
  · exact Except.noConfusion h
  split at h
  · exact Except.noConfusion h
  dsimp only at h
  split at h
  · exact Except.noConfusion h
  split at h
  · exact Except.noConfusion h
  case _ HB heqH =>
    try dsimp only at h
    split at h
    · exact Except.noConfusion h
    case _ cFW heqO =>
      obtain ⟨c, iF, iW⟩ := cFW
      try dsimp only at h
      split at h
      · exact Except.noConfusion h
      case _ hne =>
        push_neg at hne
        injection h with h2
        obtain ⟨h2a, h2b⟩ := (Prod.mk.injEq _ _ _ _).mp h2
        have hlen := orbit_outer_weight_len _ _ _ _ _ _ _ _ _ _ _ _ _ _ _ _ _ _ _
          heqO rfl
        rw [← h2b]
        rw [← hlen, List.take_length] at hne
        exact hne

/-- Witness for `reduce_kpoint_list_weight_sum`: a one-point list on the
triclinic lattice with an empty point group reduces to itself with weight 1. -/
theorem reduce_kpoint_list_weight_sum_witness :
    ∃ rk w, reduce_kpoint_list [] snfTriv [0] Ttri Ttri 0 9 (1/100000) (1/100000000)
        = Except.ok (rk, w) ∧ w.sum = ([0] : List (Vec3 ℚ)).length := by
  have h : reduce_kpoint_list [] snfTriv [0] Ttri Ttri 0 9 (1/100000) (1/100000000)
      = Except.ok ([0], [1]) := by decide
  exact ⟨[0], [1], h, reduce_kpoint_list_weight_sum [] snfTriv [0] Ttri Ttri 0 9
    (1/100000) (1/100000000) [0] [1] h⟩

/-- C3 counterexample: `find_orbits` on the 2-element list `[0, 0]` (a
duplicated k-point, so `N = 2`) over the triclinic lattice returns normally
with weights `[1]`, whose sum is 1 ≠ 2 — no consistency error is raised. -/
theorem find_orbits_weight_sum_counterexample :
    find_orbits snfTriv [0, 0] Ttri Ttri Ttri 0 [0] [0] Coords.lat (1/10000000000) 4
        (1/10000) (1/1000000) = Except.ok ([0], [1])
    ∧ List.sum [1] ≠ List.length ([0, 0] : List (Vec3 ℚ)) :=
  ⟨by decide, by decide⟩

/-- C1: `find_orbits` applies only the rotation part of each space-group
pair; its run coincides with the claimed rotation-plus-translation semantics
(`find_orbits_spec`) precisely when all the fractional translations of the
space group vanish.  (With nonzero translations the two differ — see the
counterexample.) -/
theorem find_orbits_translation_blind (snf : Mat3 ℤ → Mat3 ℤ × Mat3 ℤ × Mat3 ℤ)
    (kpoint_list : List (Vec3 ℚ))
    (lattice_vectors rlattice_vectors grid_vectors : Mat3 ℚ) (shift : Vec3 ℚ)
    (atom_labels : List ℤ) (atom_positions : List (Vec3 ℚ)) (atom_coords : Coords)
    (eps : ℚ) (rounding_eps : ℕ) (rtol atol : ℚ)
    (h : ∀ t ∈ setupTranslations (find_orbits_setup snf lattice_vectors rlattice_vectors
        grid_vectors shift atom_labels atom_positions atom_coords eps rtol atol), t = 0) :
    find_orbits snf kpoint_list lattice_vectors rlattice_vectors grid_vectors shift
        atom_labels atom_positions atom_coords eps rounding_eps rtol atol
      = find_orbits_spec snf kpoint_list lattice_vectors rlattice_vectors grid_vectors
        shift atom_labels atom_positions atom_coords eps rounding_eps rtol atol := by
  unfold find_orbits find_orbits_spec find_orbits_with
  cases hs : find_orbits_setup snf lattice_vectors rlattice_vectors grid_vectors shift
      atom_labels atom_positions atom_coords eps rtol atol with
  | error e => rfl
  | ok x =>
    rw [hs] at h
    simp only [setupTranslations] at h
    dsimp only
    have hzip : ∀ op ∈ List.zip x.1.1 x.1.2, ∀ k : Vec3 ℚ,
        (fun (op : Mat3 ℚ × Vec3 ℚ) k => op.1.mulVec k) op k
          = (fun (op : Mat3 ℚ × Vec3 ℚ) k => op.1.mulVec k + op.2) op k := by
      intro op hop k
      obtain ⟨o, t⟩ := op
      have ht0 := h t (List.mem_zip hop).2
      dsimp only
      rw [ht0, vec_add_zero]
    rw [orbit_outer_congr (fun (op : Mat3 ℚ × Vec3 ℚ) k => op.1.mulVec k)
      (fun (op : Mat3 ℚ × Vec3 ℚ) k => op.1.mulVec k + op.2) (List.zip x.1.1 x.1.2)
      rlattice_vectors grid_vectors.inv x.2.1 x.2.2.1 x.2.2.2 rtol (1/100000000)
      rounding_eps hzip kpoint_list 0 (List.replicate kpoint_list.length none) 0 [] []]

/-- Witness for `find_orbits_translation_blind`: a single atom at the origin
of the triclinic lattice gives a space group whose fractional translations
are all zero, and the two semantics agree. -/
theorem find_orbits_translation_blind_witness :
    (∀ t ∈ setupTranslations (find_orbits_setup snfTriv Ttri Ttri Ttri 0 [0] [0]
        Coords.lat (1/10000000000) (1/10000) (1/1000000)), t = 0)
    ∧ find_orbits snfTriv [0] Ttri Ttri Ttri 0 [0] [0] Coords.lat (1/10000000000) 4
        (1/10000) (1/1000000)
      = find_orbits_spec snfTriv [0] Ttri Ttri Ttri 0 [0] [0] Coords.lat (1/10000000000)
        4 (1/10000) (1/1000000) :=
  ⟨by decide, find_orbits_translation_blind snfTriv [0] Ttri Ttri Ttri 0 [0] [0]
    Coords.lat (1/10000000000) 4 (1/10000) (1/1000000) (by decide)⟩

/-- C1 counterexample: the triclinic lattice decorated with two same-label
atoms at lattice coordinates `(0,0,0)` and `(0,0,1/2)` has space-group pairs
with the nonzero fractional translation `(1/2,1/2,7/2)`; on the full 1×1×2
grid, `find_orbits` (rotation only) returns singleton orbits while the
claimed rotation-plus-translation semantics pairs the points into orbits of
weight 2, so the two runs differ. -/
theorem find_orbits_ignores_translations_counterexample :
    find_orbits snfTriv [0, ⟨1/2, 1/2, 7/2⟩]
        Ttri Ttri ⟨⟨5, 0, 0⟩, ⟨1, 6, 0⟩, ⟨1/2, 1/2, 7/2⟩⟩ 0 [0, 0]
        [0, ⟨0, 0, 1/2⟩] Coords.lat (1/10000000000) 4 (1/10000) (1/1000000)
      ≠ find_orbits_spec snfTriv [0, ⟨1/2, 1/2, 7/2⟩]
        Ttri Ttri ⟨⟨5, 0, 0⟩, ⟨1, 6, 0⟩, ⟨1/2, 1/2, 7/2⟩⟩ 0 [0, 0]
        [0, ⟨0, 0, 1/2⟩] Coords.lat (1/10000000000) 4 (1/10000) (1/1000000) := by
  decide

end BZI
